import Mathlib

/-!
Verification development for the Z3 constraint-lowering and model-decoding
bridge (`src/solver/z3solver.cc`).

The development shallowly embeds:

* the fragment of the symbolic term algebra that the bridge consumes
  (`SymBool` / `SymBitVector`, as used by `Z3Solver::ExprConverter`);
* the conjunction flattener `split_constraints`;
* the lowering engine (`ExprConverter::visit` per node kind), which emits
  derived side constraints for signed division;
* the iterative worklist of `Z3Solver::is_sat` (abort sampling, typecheck,
  lowering, assertion, ternary solver outcome);
* the model decoders `get_model_bv` and `get_model_array`.

The external Z3 solver is modelled as an oracle producing one of the
outcomes `unsat` / `sat` / `unknown` (plus a nominally impossible fourth
value and a thrown exception, both of which the C++ code handles).  Z3
terms are given their SMT-LIB evaluation semantics so that "satisfying
model" is expressible.
-/

set_option autoImplicit false

/-! ## Fixed-width bit-vector value semantics (SMT-LIB)

Values of a width-`w` bit vector are represented as naturals `< 2^w`.
These helpers give the SMT-LIB meaning of the Z3 operators that the
lowering engine targets (`Z3_mk_bvadd`, `Z3_mk_bvudiv`, ...). -/

/-- Two's-complement reading of a width-`w` value. -/
def toSigned (w : Nat) (x : Nat) : Int :=
  if x < 2 ^ (w - 1) then (x : Int) else (x : Int) - 2 ^ w

/-- Two's-complement negation, `Z3_mk_bvneg`. -/
def bvNegFn (w x : Nat) : Nat := (2 ^ w - x) % 2 ^ w

/-- Bitwise complement, `Z3_mk_bvnot`. -/
def bvNotFn (w x : Nat) : Nat := 2 ^ w - 1 - x

/-- Unsigned division, `Z3_mk_bvudiv`; division by zero yields all ones. -/
def bvUdivFn (w x y : Nat) : Nat := if y = 0 then 2 ^ w - 1 else x / y

/-- Unsigned remainder, `Z3_mk_bvurem`; remainder by zero yields the dividend. -/
def bvUremFn (x y : Nat) : Nat := if y = 0 then x else x % y

/-- Signed division, `Z3_mk_bvsdiv`, by the SMT-LIB case split on the sign bits. -/
def bvSdivFn (w x y : Nat) : Nat :=
  if x < 2 ^ (w - 1) then
    if y < 2 ^ (w - 1) then bvUdivFn w x y
    else bvNegFn w (bvUdivFn w x (bvNegFn w y))
  else
    if y < 2 ^ (w - 1) then bvNegFn w (bvUdivFn w (bvNegFn w x) y)
    else bvUdivFn w (bvNegFn w x) (bvNegFn w y)

/-- Signed remainder, `Z3_mk_bvsrem`, by the SMT-LIB case split on the sign bits. -/
def bvSremFn (w x y : Nat) : Nat :=
  if x < 2 ^ (w - 1) then
    if y < 2 ^ (w - 1) then bvUremFn x y
    else bvUremFn x (bvNegFn w y)
  else
    if y < 2 ^ (w - 1) then bvNegFn w (bvUremFn (bvNegFn w x) y)
    else bvNegFn w (bvUremFn (bvNegFn w x) (bvNegFn w y))

/-- Arithmetic shift right, `Z3_mk_bvashr`. -/
def bvAshrFn (w x y : Nat) : Nat :=
  if x < 2 ^ (w - 1) then x >>> y
  else 2 ^ w - 1 - (bvNotFn w x >>> y)

/-- Sign extension by `k` extra bits, `Z3_mk_sign_ext`. -/
def signExtFn (w k x : Nat) : Nat :=
  if x < 2 ^ (w - 1) then x else x + (2 ^ k - 1) * 2 ^ w

/-! ## The symbolic term algebra

The fragment of stoke's `SymBitVector` / `SymBool` node kinds that
`Z3Solver::ExprConverter` translates, one constructor per `visit`
overload embedded here.  (Uninterpreted-function application, bit-vector
if-then-else, rotates and the array-typed nodes are not needed by any
claim and are omitted from the fragment.) -/

/-- Bit-vector terms of the symbolic algebra (`SymBitVectorVar`,
`SymBitVectorConstant`, `SymBitVectorPlus`, ...). -/
inductive SymBitVector where
  | var (name : String) (size : Nat)
  | const (size : Nat) (val : Nat)
  | and (a b : SymBitVector)
  | or (a b : SymBitVector)
  | xor (a b : SymBitVector)
  | not (bv : SymBitVector)
  | plus (a b : SymBitVector)
  | minus (a b : SymBitVector)
  | mult (a b : SymBitVector)
  | div (a b : SymBitVector)
  | mod (a b : SymBitVector)
  | signDiv (a b : SymBitVector)
  | signMod (a b : SymBitVector)
  | shiftLeft (a b : SymBitVector)
  | shiftRight (a b : SymBitVector)
  | signShiftRight (a b : SymBitVector)
  | uminus (bv : SymBitVector)
  | concat (a b : SymBitVector)
  | extract (highBit lowBit : Nat) (bv : SymBitVector)
  | signExtend (size : Nat) (bv : SymBitVector)
  deriving DecidableEq, Repr

/-- Width of a bit-vector term (`SymBitVector::width()` of the external
algebra: binary operators keep the width of their operands, `concat` adds
widths, `extract` and `signExtend` fix the width explicitly). -/
def SymBitVector.width : SymBitVector → Nat
  | .var _ size => size
  | .const size _ => size
  | .and a _ => a.width
  | .or a _ => a.width
  | .xor a _ => a.width
  | .not bv => bv.width
  | .plus a _ => a.width
  | .minus a _ => a.width
  | .mult a _ => a.width
  | .div a _ => a.width
  | .mod a _ => a.width
  | .signDiv a _ => a.width
  | .signMod a _ => a.width
  | .shiftLeft a _ => a.width
  | .shiftRight a _ => a.width
  | .signShiftRight a _ => a.width
  | .uminus bv => bv.width
  | .concat a b => a.width + b.width
  | .extract highBit lowBit _ => highBit - lowBit + 1
  | .signExtend size _ => size

/-- Boolean terms of the symbolic algebra (`SymBoolAnd`, `SymBoolEq`,
`SymBoolForAll`, ...).  Quantified variables are (name, width) pairs as in
`SymBoolForAll::vars_`. -/
inductive SymBool where
  | tru
  | fls
  | var (name : String)
  | and (a b : SymBool)
  | or (a b : SymBool)
  | not (b : SymBool)
  | xor (a b : SymBool)
  | implies (a b : SymBool)
  | iff (a b : SymBool)
  | eq (a b : SymBitVector)
  | lt (a b : SymBitVector)
  | le (a b : SymBitVector)
  | gt (a b : SymBitVector)
  | ge (a b : SymBitVector)
  | signLt (a b : SymBitVector)
  | signLe (a b : SymBitVector)
  | signGt (a b : SymBitVector)
  | signGe (a b : SymBitVector)
  | forAll (vars : List (String × Nat)) (a : SymBool)
  deriving DecidableEq, Repr

/-- Whether a constraint is a top-level conjunction (`it.type() == SymBool::AND`). -/
def isAnd : SymBool → Bool
  | .and _ _ => true
  | _ => false

/-! ## The conjunction flattener `split_constraints`

The C++ function iterates over the input vector with an accumulator
`split`: a non-AND element is pushed at the back; for an AND node
`a ∧ b` the recursive result `split_constraints({a, b})` is inserted at
the *front* of the accumulator.

`split_constraints_rec` below is the literal transcription (well-founded
recursion on the total term size).  To keep every pipeline definition
reducible by the kernel, the version used by `is_sat` is the structurally
recursive `split_constraints`, where `splitOne c` computes exactly the
C++ value of `split_constraints({a, b})` for `c = a ∧ b`; the two
versions are proved equal (`split_constraints_rec_eq`, part of the C4
theorem). -/

/-- Value of the C++ call `split_constraints({a, b})` for the node `a ∧ b`,
unfolded so that the recursion is structural: processing `a` from the empty
accumulator yields `splitOne a` (for non-AND `a` this is `[a]`), and then
`b` is either pushed at the back (non-AND) or its own flattening is
prepended. -/
def splitOne : SymBool → List SymBool
  | .and a b => if isAnd b then splitOne b ++ splitOne a else splitOne a ++ [b]
  | c => [c]

/-- The accumulator loop of `split_constraints`: one step per input element,
prepending `splitOne c` for an AND node and appending `c` otherwise. -/
def splitGo : List SymBool → List SymBool → List SymBool
  | acc, [] => acc
  | acc, c :: rest =>
    splitGo (if isAnd c then splitOne c ++ acc else acc ++ [c]) rest

/-- Recursively split top-level AND constraints into a flat sequence of
non-AND constraints (`split_constraints` in `z3solver.cc`). -/
def split_constraints (cs : List SymBool) : List SymBool :=
  splitGo [] cs

/-- Size of a boolean term (every node counts at least one). -/
def termSize : SymBool → Nat
  | .and a b => termSize a + termSize b + 1
  | _ => 1

/-- Total size of a list of constraints. -/
def listSize (cs : List SymBool) : Nat := (cs.map termSize).sum

theorem termSize_pos (c : SymBool) : 1 ≤ termSize c := by
  cases c <;> simp [termSize]

/-- Literal transcription of the C++ `split_constraints`: the loop carries
the accumulator, and the AND branch recursively flattens the two-element
vector `{a, b}` starting from a fresh (empty) accumulator. -/
def splitRecGo : List SymBool → List SymBool → List SymBool
  | acc, [] => acc
  | acc, SymBool.and a b :: rest =>
    splitRecGo (splitRecGo [] [a, b] ++ acc) rest
  | acc, c :: rest => splitRecGo (acc ++ [c]) rest
termination_by _ cs => listSize cs
decreasing_by
  all_goals simp only [listSize, List.map_cons, List.map_nil, List.sum_cons,
    List.sum_nil, termSize]
  · omega
  · omega
  · have := termSize_pos c
    omega

/-- Literal transcription of `split_constraints` (see `splitRecGo`). -/
def split_constraints_rec (cs : List SymBool) : List SymBool :=
  splitRecGo [] cs

/-! ## Background facts (axiom closure)

Modelled from the spec: `is_sat` first runs a visitor over the constraints
that collects implied background facts for uninterpreted function symbols
(`SymAxiomVisitor::get_axioms`, whose source is not part of the visible
core).  The embedded algebra fragment contains no uninterpreted-function
nodes, so the closure is empty; `is_sat` then prepends the original
constraints, yielding `cs ++ backgroundFacts cs`. -/
def backgroundFacts (_cs : List SymBool) : List SymBool := []

/-! ## Typechecking

Modelled from the spec: the typechecker validates bit-width and sort
consistency of every sub-term of one constraint before lowering
(`SymTypecheckVisitor`, whose source is not part of the visible core);
`is_sat` treats any result other than success as query-fatal. -/

/-- Width-consistency of a bit-vector term (modelled from the spec). -/
def wellTypedBV : SymBitVector → Bool
  | .var _ _ => true
  | .const _ _ => true
  | .and a b => wellTypedBV a && wellTypedBV b && (a.width == b.width)
  | .or a b => wellTypedBV a && wellTypedBV b && (a.width == b.width)
  | .xor a b => wellTypedBV a && wellTypedBV b && (a.width == b.width)
  | .not bv => wellTypedBV bv
  | .plus a b => wellTypedBV a && wellTypedBV b && (a.width == b.width)
  | .minus a b => wellTypedBV a && wellTypedBV b && (a.width == b.width)
  | .mult a b => wellTypedBV a && wellTypedBV b && (a.width == b.width)
  | .div a b => wellTypedBV a && wellTypedBV b && (a.width == b.width)
  | .mod a b => wellTypedBV a && wellTypedBV b && (a.width == b.width)
  | .signDiv a b => wellTypedBV a && wellTypedBV b && (a.width == b.width)
  | .signMod a b => wellTypedBV a && wellTypedBV b && (a.width == b.width)
  | .shiftLeft a b => wellTypedBV a && wellTypedBV b && (a.width == b.width)
  | .shiftRight a b => wellTypedBV a && wellTypedBV b && (a.width == b.width)
  | .signShiftRight a b => wellTypedBV a && wellTypedBV b && (a.width == b.width)
  | .uminus bv => wellTypedBV bv
  | .concat a b => wellTypedBV a && wellTypedBV b
  | .extract highBit lowBit bv =>
    wellTypedBV bv && (lowBit ≤ highBit) && (highBit < bv.width)
  | .signExtend size bv => wellTypedBV bv && (bv.width ≤ size)

/-- Width-consistency of a boolean constraint (modelled from the spec);
`is_sat` aborts the query when this fails for any pending constraint. -/
def typecheck : SymBool → Bool
  | .tru => true
  | .fls => true
  | .var _ => true
  | .and a b => typecheck a && typecheck b
  | .or a b => typecheck a && typecheck b
  | .not b => typecheck b
  | .xor a b => typecheck a && typecheck b
  | .implies a b => typecheck a && typecheck b
  | .iff a b => typecheck a && typecheck b
  | .eq a b => wellTypedBV a && wellTypedBV b && (a.width == b.width)
  | .lt a b => wellTypedBV a && wellTypedBV b && (a.width == b.width)
  | .le a b => wellTypedBV a && wellTypedBV b && (a.width == b.width)
  | .gt a b => wellTypedBV a && wellTypedBV b && (a.width == b.width)
  | .ge a b => wellTypedBV a && wellTypedBV b && (a.width == b.width)
  | .signLt a b => wellTypedBV a && wellTypedBV b && (a.width == b.width)
  | .signLe a b => wellTypedBV a && wellTypedBV b && (a.width == b.width)
  | .signGt a b => wellTypedBV a && wellTypedBV b && (a.width == b.width)
  | .signGe a b => wellTypedBV a && wellTypedBV b && (a.width == b.width)
  | .forAll _ a => typecheck a

/-! ## Z3 terms

The target representation built by the `Z3_mk_*` calls of the lowering
engine, one constructor per Z3 operator the converter uses. -/

/-- Z3 bit-vector terms. -/
inductive Z3BV where
  | var (name : String) (size : Nat)
  | num (size : Nat) (val : Nat)
  | bvand (a b : Z3BV)
  | bvor (a b : Z3BV)
  | bvxor (a b : Z3BV)
  | bvnot (a : Z3BV)
  | bvadd (a b : Z3BV)
  | bvsub (a b : Z3BV)
  | bvmul (a b : Z3BV)
  | bvudiv (a b : Z3BV)
  | bvurem (a b : Z3BV)
  | bvsdiv (a b : Z3BV)
  | bvsrem (a b : Z3BV)
  | bvshl (a b : Z3BV)
  | bvlshr (a b : Z3BV)
  | bvashr (a b : Z3BV)
  | bvneg (a : Z3BV)
  | concat (a b : Z3BV)
  | extract (highBit lowBit : Nat) (a : Z3BV)
  | signExt (extra : Nat) (a : Z3BV)
  deriving DecidableEq, Repr

/-- Sort width of a Z3 bit-vector term. -/
def Z3BV.width : Z3BV → Nat
  | .var _ size => size
  | .num size _ => size
  | .bvand a _ => a.width
  | .bvor a _ => a.width
  | .bvxor a _ => a.width
  | .bvnot a => a.width
  | .bvadd a _ => a.width
  | .bvsub a _ => a.width
  | .bvmul a _ => a.width
  | .bvudiv a _ => a.width
  | .bvurem a _ => a.width
  | .bvsdiv a _ => a.width
  | .bvsrem a _ => a.width
  | .bvshl a _ => a.width
  | .bvlshr a _ => a.width
  | .bvashr a _ => a.width
  | .bvneg a => a.width
  | .concat a b => a.width + b.width
  | .extract highBit lowBit _ => highBit - lowBit + 1
  | .signExt extra a => a.width + extra

/-- Z3 boolean terms.  `iff` is lowered through `Z3_mk_eq` on booleans
(`eqB`), bit-vector equality through `Z3_mk_eq` on bit-vectors (`eqBV`). -/
inductive Z3Bool where
  | tru
  | fls
  | var (name : String)
  | and (a b : Z3Bool)
  | or (a b : Z3Bool)
  | not (a : Z3Bool)
  | xor (a b : Z3Bool)
  | implies (a b : Z3Bool)
  | eqB (a b : Z3Bool)
  | eqBV (a b : Z3BV)
  | bvult (a b : Z3BV)
  | bvule (a b : Z3BV)
  | bvugt (a b : Z3BV)
  | bvuge (a b : Z3BV)
  | bvslt (a b : Z3BV)
  | bvsle (a b : Z3BV)
  | bvsgt (a b : Z3BV)
  | bvsge (a b : Z3BV)
  | forallE (vars : List (String × Nat)) (body : Z3Bool)
  deriving DecidableEq, Repr

/-! ## The lowering engine (`Z3Solver::ExprConverter`)

Each `visit` overload becomes one equation.  The converter carries a
reference to the pending batch `constraints_`; here each translation
returns the produced Z3 term together with the list of derived
constraints it pushed, in push order.  Signed division pushes its
non-zero-divisor guard *before* translating the operands
(`visit(SymBitVectorSignDiv)`).

The only fatal path in the embedded fragment is a universal quantifier
over a number of bound variables other than one, two or three
(`visit(SymBoolForAll)` ends in `assert(false)` otherwise); the fatal
`assert` is modelled as the `Except` error. -/

/-- The derived side constraint for a signed division with divisor `b`:
`arg != zero` where `zero = SymBitVector::constant(width, 0)`; the external
algebra's `!=` is the negated equality. -/
def divisorGuard (b : SymBitVector) : SymBool :=
  SymBool.not (SymBool.eq b (SymBitVector.const b.width 0))

/-- Lower a bit-vector term, returning the Z3 term and the derived
constraints pushed onto the pending batch. -/
def lowerBV : SymBitVector → Z3BV × List SymBool
  | .var name size => (.var name size, [])
  | .const size val => (.num size val, [])
  | .and a b =>
    ((lowerBV a).1.bvand (lowerBV b).1, (lowerBV a).2 ++ (lowerBV b).2)
  | .or a b =>
    ((lowerBV a).1.bvor (lowerBV b).1, (lowerBV a).2 ++ (lowerBV b).2)
  | .xor a b =>
    ((lowerBV a).1.bvxor (lowerBV b).1, (lowerBV a).2 ++ (lowerBV b).2)
  | .not bv => ((lowerBV bv).1.bvnot, (lowerBV bv).2)
  | .plus a b =>
    ((lowerBV a).1.bvadd (lowerBV b).1, (lowerBV a).2 ++ (lowerBV b).2)
  | .minus a b =>
    ((lowerBV a).1.bvsub (lowerBV b).1, (lowerBV a).2 ++ (lowerBV b).2)
  | .mult a b =>
    ((lowerBV a).1.bvmul (lowerBV b).1, (lowerBV a).2 ++ (lowerBV b).2)
  | .div a b =>
    ((lowerBV a).1.bvudiv (lowerBV b).1, (lowerBV a).2 ++ (lowerBV b).2)
  | .mod a b =>
    ((lowerBV a).1.bvurem (lowerBV b).1, (lowerBV a).2 ++ (lowerBV b).2)
  | .signDiv a b =>
    ((lowerBV a).1.bvsdiv (lowerBV b).1,
      divisorGuard b :: ((lowerBV a).2 ++ (lowerBV b).2))
  | .signMod a b =>
    ((lowerBV a).1.bvsrem (lowerBV b).1, (lowerBV a).2 ++ (lowerBV b).2)
  | .shiftLeft a b =>
    ((lowerBV a).1.bvshl (lowerBV b).1, (lowerBV a).2 ++ (lowerBV b).2)
  | .shiftRight a b =>
    ((lowerBV a).1.bvlshr (lowerBV b).1, (lowerBV a).2 ++ (lowerBV b).2)
  | .signShiftRight a b =>
    ((lowerBV a).1.bvashr (lowerBV b).1, (lowerBV a).2 ++ (lowerBV b).2)
  | .uminus bv => ((lowerBV bv).1.bvneg, (lowerBV bv).2)
  | .concat a b =>
    ((lowerBV a).1.concat (lowerBV b).1, (lowerBV a).2 ++ (lowerBV b).2)
  | .extract highBit lowBit bv =>
    (.extract highBit lowBit (lowerBV bv).1, (lowerBV bv).2)
  | .signExtend size bv =>
    (.signExt (size - bv.width) (lowerBV bv).1, (lowerBV bv).2)

/-- Lower a boolean constraint; `Except` failure is the converter's fatal
`assert(false)` (a quantifier whose bound-variable count is outside
one-to-three). -/
def lowerBool : SymBool → Except Unit (Z3Bool × List SymBool)
  | .tru => .ok (.tru, [])
  | .fls => .ok (.fls, [])
  | .var name => .ok (.var name, [])
  | .and a b => do
    let ra ← lowerBool a
    let rb ← lowerBool b
    .ok (ra.1.and rb.1, ra.2 ++ rb.2)
  | .or a b => do
    let ra ← lowerBool a
    let rb ← lowerBool b
    .ok (ra.1.or rb.1, ra.2 ++ rb.2)
  | .not b => do
    let rb ← lowerBool b
    .ok (rb.1.not, rb.2)
  | .xor a b => do
    let ra ← lowerBool a
    let rb ← lowerBool b
    .ok (ra.1.xor rb.1, ra.2 ++ rb.2)
  | .implies a b => do
    let ra ← lowerBool a
    let rb ← lowerBool b
    .ok (ra.1.implies rb.1, ra.2 ++ rb.2)
  | .iff a b => do
    let ra ← lowerBool a
    let rb ← lowerBool b
    .ok (ra.1.eqB rb.1, ra.2 ++ rb.2)
  | .eq a b =>
    .ok (.eqBV (lowerBV a).1 (lowerBV b).1, (lowerBV a).2 ++ (lowerBV b).2)
  | .lt a b =>
    .ok (.bvult (lowerBV a).1 (lowerBV b).1, (lowerBV a).2 ++ (lowerBV b).2)
  | .le a b =>
    .ok (.bvule (lowerBV a).1 (lowerBV b).1, (lowerBV a).2 ++ (lowerBV b).2)
  | .gt a b =>
    .ok (.bvugt (lowerBV a).1 (lowerBV b).1, (lowerBV a).2 ++ (lowerBV b).2)
  | .ge a b =>
    .ok (.bvuge (lowerBV a).1 (lowerBV b).1, (lowerBV a).2 ++ (lowerBV b).2)
  | .signLt a b =>
    .ok (.bvslt (lowerBV a).1 (lowerBV b).1, (lowerBV a).2 ++ (lowerBV b).2)
  | .signLe a b =>
    .ok (.bvsle (lowerBV a).1 (lowerBV b).1, (lowerBV a).2 ++ (lowerBV b).2)
  | .signGt a b =>
    .ok (.bvsgt (lowerBV a).1 (lowerBV b).1, (lowerBV a).2 ++ (lowerBV b).2)
  | .signGe a b =>
    .ok (.bvsge (lowerBV a).1 (lowerBV b).1, (lowerBV a).2 ++ (lowerBV b).2)
  | .forAll vars a => do
    let ra ← lowerBool a
    match vars.length with
    | 1 => .ok (.forallE vars ra.1, ra.2)
    | 2 => .ok (.forallE vars ra.1, ra.2)
    | 3 => .ok (.forallE vars ra.1, ra.2)
    | _ => .error ()

/-! ## Models and evaluation

A model assigns a value to every bit-vector constant (name and sort
width) and every boolean constant.  Z3 terms are evaluated under a model
with the SMT-LIB semantics given by the helper functions above; a
universal quantifier is evaluated by shadowing the bound constants with
every width-bounded value. -/

/-- A Z3 model / evaluation environment. -/
structure Z3Model where
  bv : String → Nat → Nat
  bool : String → Bool

/-- Shadow the bit-vector constant `(n, w)` with the value `v`. -/
def Z3Model.updateBV (m : Z3Model) (n : String) (w : Nat) (v : Nat) : Z3Model :=
  { m with bv := fun name width => if name = n ∧ width = w then v else m.bv name width }

/-- All environments extending `m` on the given bound variables (each
ranging over its full width). -/
def allEnvs (m : Z3Model) : List (String × Nat) → List Z3Model
  | [] => [m]
  | (n, w) :: rest =>
    (List.range (2 ^ w)).flatMap fun v => allEnvs (m.updateBV n w v) rest

/-- Value of a Z3 bit-vector term under a model (always reduced modulo the
sort width). -/
def evalZ3BV (m : Z3Model) : Z3BV → Nat
  | .var name size => m.bv name size % 2 ^ size
  | .num size val => val % 2 ^ size
  | .bvand a b => (evalZ3BV m a) &&& (evalZ3BV m b)
  | .bvor a b => (evalZ3BV m a) ||| (evalZ3BV m b)
  | .bvxor a b => (evalZ3BV m a) ^^^ (evalZ3BV m b)
  | .bvnot a => bvNotFn a.width (evalZ3BV m a)
  | .bvadd a b => (evalZ3BV m a + evalZ3BV m b) % 2 ^ a.width
  | .bvsub a b => (evalZ3BV m a + (2 ^ a.width - evalZ3BV m b)) % 2 ^ a.width
  | .bvmul a b => (evalZ3BV m a * evalZ3BV m b) % 2 ^ a.width
  | .bvudiv a b => bvUdivFn a.width (evalZ3BV m a) (evalZ3BV m b)
  | .bvurem a b => bvUremFn (evalZ3BV m a) (evalZ3BV m b)
  | .bvsdiv a b => bvSdivFn a.width (evalZ3BV m a) (evalZ3BV m b)
  | .bvsrem a b => bvSremFn a.width (evalZ3BV m a) (evalZ3BV m b)
  | .bvshl a b => ((evalZ3BV m a) <<< (evalZ3BV m b)) % 2 ^ a.width
  | .bvlshr a b => (evalZ3BV m a) >>> (evalZ3BV m b)
  | .bvashr a b => bvAshrFn a.width (evalZ3BV m a) (evalZ3BV m b)
  | .bvneg a => bvNegFn a.width (evalZ3BV m a)
  | .concat a b => evalZ3BV m a * 2 ^ b.width + evalZ3BV m b
  | .extract highBit lowBit a =>
    ((evalZ3BV m a) >>> lowBit) % 2 ^ (highBit - lowBit + 1)
  | .signExt extra a => signExtFn a.width extra (evalZ3BV m a)

/-- Truth value of a Z3 boolean term under a model. -/
def evalZ3Bool (m : Z3Model) : Z3Bool → Bool
  | .tru => true
  | .fls => false
  | .var name => m.bool name
  | .and a b => evalZ3Bool m a && evalZ3Bool m b
  | .or a b => evalZ3Bool m a || evalZ3Bool m b
  | .not a => !(evalZ3Bool m a)
  | .xor a b => evalZ3Bool m a != evalZ3Bool m b
  | .implies a b => !(evalZ3Bool m a) || evalZ3Bool m b
  | .eqB a b => evalZ3Bool m a == evalZ3Bool m b
  | .eqBV a b => evalZ3BV m a == evalZ3BV m b
  | .bvult a b => evalZ3BV m a < evalZ3BV m b
  | .bvule a b => evalZ3BV m a ≤ evalZ3BV m b
  | .bvugt a b => evalZ3BV m b < evalZ3BV m a
  | .bvuge a b => evalZ3BV m b ≤ evalZ3BV m a
  | .bvslt a b => toSigned a.width (evalZ3BV m a) < toSigned a.width (evalZ3BV m b)
  | .bvsle a b => toSigned a.width (evalZ3BV m a) ≤ toSigned a.width (evalZ3BV m b)
  | .bvsgt a b => toSigned a.width (evalZ3BV m b) < toSigned a.width (evalZ3BV m a)
  | .bvsge a b => toSigned a.width (evalZ3BV m b) ≤ toSigned a.width (evalZ3BV m a)
  | .forallE vars body => (allEnvs m vars).all fun env => evalZ3Bool env body

/-- Value of a symbolic bit-vector term under a model (same value
semantics as the Z3 operators it lowers to). -/
def evalSymBV (m : Z3Model) : SymBitVector → Nat
  | .var name size => m.bv name size % 2 ^ size
  | .const size val => val % 2 ^ size
  | .and a b => (evalSymBV m a) &&& (evalSymBV m b)
  | .or a b => (evalSymBV m a) ||| (evalSymBV m b)
  | .xor a b => (evalSymBV m a) ^^^ (evalSymBV m b)
  | .not bv => bvNotFn bv.width (evalSymBV m bv)
  | .plus a b => (evalSymBV m a + evalSymBV m b) % 2 ^ a.width
  | .minus a b => (evalSymBV m a + (2 ^ a.width - evalSymBV m b)) % 2 ^ a.width
  | .mult a b => (evalSymBV m a * evalSymBV m b) % 2 ^ a.width
  | .div a b => bvUdivFn a.width (evalSymBV m a) (evalSymBV m b)
  | .mod a b => bvUremFn (evalSymBV m a) (evalSymBV m b)
  | .signDiv a b => bvSdivFn a.width (evalSymBV m a) (evalSymBV m b)
  | .signMod a b => bvSremFn a.width (evalSymBV m a) (evalSymBV m b)
  | .shiftLeft a b => ((evalSymBV m a) <<< (evalSymBV m b)) % 2 ^ a.width
  | .shiftRight a b => (evalSymBV m a) >>> (evalSymBV m b)
  | .signShiftRight a b => bvAshrFn a.width (evalSymBV m a) (evalSymBV m b)
  | .uminus bv => bvNegFn bv.width (evalSymBV m bv)
  | .concat a b => evalSymBV m a * 2 ^ b.width + evalSymBV m b
  | .extract highBit lowBit bv =>
    ((evalSymBV m bv) >>> lowBit) % 2 ^ (highBit - lowBit + 1)
  | .signExtend size bv => signExtFn bv.width (size - bv.width) (evalSymBV m bv)

/-- Truth value of a symbolic boolean constraint under a model. -/
def evalSymBool (m : Z3Model) : SymBool → Bool
  | .tru => true
  | .fls => false
  | .var name => m.bool name
  | .and a b => evalSymBool m a && evalSymBool m b
  | .or a b => evalSymBool m a || evalSymBool m b
  | .not b => !(evalSymBool m b)
  | .xor a b => evalSymBool m a != evalSymBool m b
  | .implies a b => !(evalSymBool m a) || evalSymBool m b
  | .iff a b => evalSymBool m a == evalSymBool m b
  | .eq a b => evalSymBV m a == evalSymBV m b
  | .lt a b => evalSymBV m a < evalSymBV m b
  | .le a b => evalSymBV m a ≤ evalSymBV m b
  | .gt a b => evalSymBV m b < evalSymBV m a
  | .ge a b => evalSymBV m b ≤ evalSymBV m a
  | .signLt a b => toSigned a.width (evalSymBV m a) < toSigned a.width (evalSymBV m b)
  | .signLe a b => toSigned a.width (evalSymBV m a) ≤ toSigned a.width (evalSymBV m b)
  | .signGt a b => toSigned a.width (evalSymBV m b) < toSigned a.width (evalSymBV m a)
  | .signGe a b => toSigned a.width (evalSymBV m b) ≤ toSigned a.width (evalSymBV m a)
  | .forAll vars a => (allEnvs m vars).all fun env => evalSymBool env a

/-! ## A termination measure for the derived-constraints worklist

Each signed-division node can make lowering emit a divisor guard, and the
guard's divisor may itself contain signed divisions, so the worklist of
`is_sat` iterates.  `nuBV` weights a signed division by twice its
divisor's weight plus one; the total weight of the constraints a batch
derives is strictly below the batch's weight (proved later), so
`nuList batch + 1` rounds of the loop always suffice. -/

/-- Worklist weight of a bit-vector term. -/
def nuBV : SymBitVector → Nat
  | .var _ _ => 0
  | .const _ _ => 0
  | .and a b => nuBV a + nuBV b
  | .or a b => nuBV a + nuBV b
  | .xor a b => nuBV a + nuBV b
  | .not bv => nuBV bv
  | .plus a b => nuBV a + nuBV b
  | .minus a b => nuBV a + nuBV b
  | .mult a b => nuBV a + nuBV b
  | .div a b => nuBV a + nuBV b
  | .mod a b => nuBV a + nuBV b
  | .signDiv a b => nuBV a + 2 * nuBV b + 1
  | .signMod a b => nuBV a + nuBV b
  | .shiftLeft a b => nuBV a + nuBV b
  | .shiftRight a b => nuBV a + nuBV b
  | .signShiftRight a b => nuBV a + nuBV b
  | .uminus bv => nuBV bv
  | .concat a b => nuBV a + nuBV b
  | .extract _ _ bv => nuBV bv
  | .signExtend _ bv => nuBV bv

/-- Worklist weight of a boolean constraint. -/
def nuBool : SymBool → Nat
  | .tru => 0
  | .fls => 0
  | .var _ => 0
  | .and a b => nuBool a + nuBool b
  | .or a b => nuBool a + nuBool b
  | .not b => nuBool b
  | .xor a b => nuBool a + nuBool b
  | .implies a b => nuBool a + nuBool b
  | .iff a b => nuBool a + nuBool b
  | .eq a b => nuBV a + nuBV b
  | .lt a b => nuBV a + nuBV b
  | .le a b => nuBV a + nuBV b
  | .gt a b => nuBV a + nuBV b
  | .ge a b => nuBV a + nuBV b
  | .signLt a b => nuBV a + nuBV b
  | .signLe a b => nuBV a + nuBV b
  | .signGt a b => nuBV a + nuBV b
  | .signGe a b => nuBV a + nuBV b
  | .forAll _ a => nuBool a

/-- Worklist weight of a batch. -/
def nuList (cs : List SymBool) : Nat := (cs.map nuBool).sum

/-! ## The `is_sat` worklist and solver invocation

Interaction with the outside world is made explicit:

* `samples n` is the value the atomic `stop_now_` flag would read at its
  `n`-th sampling point after `is_sat` stored `false` into it (another
  thread may set the flag at any time, so the stream is arbitrary);
* the solver call `solver_.check()` is an oracle from the asserted terms
  to an outcome: `unsat` / `sat` (with a model) / `unknown`, plus the
  nominally impossible fourth enumeration value (`other`, handled by the
  `default: assert(false)` arm) and a thrown exception (`throws`, handled
  by the `catch` block). -/

/-- The solver-facing member state of `Z3Solver` before a call
(`error_`, `model_`, `stop_now_`); `is_sat` overwrites all of it first. -/
structure SolverState where
  error : String
  model : Option Z3Model
  stopNow : Bool

/-- Outcome of `solver_.check()` as seen by the `switch` / `catch` in
`is_sat`. -/
inductive CheckOutcome where
  | unsat
  | sat (m : Z3Model)
  | unknown
  | other
  | throws (msg : String)

/-- Observable result of a returning `is_sat` call: the returned boolean
plus the member state it leaves behind (`error_`, `model_`) and the terms
asserted into the solver session. -/
structure RunResult where
  ret : Bool
  error : String
  model : Option Z3Model
  asserted : List Z3Bool

/-- Result of one `is_sat` call.  `assertionFailure` is a fatal
`assert(false)` (converter arity overflow or an impossible solver
outcome), not a reported error.  `spin` is the fuel-exhaustion marker of
the embedded worklist; `is_sat_no_spin` proves it never occurs. -/
inductive SatResult where
  | ret (r : RunResult)
  | assertionFailure
  | spin

/-- Error message used when typechecking a constraint fails (the C++
message additionally prints the offending constraint). -/
def typecheckFailMsg : String := "Typechecking failed for constraint."

/-- Per-constraint processing of one batch (the `for` loop of `is_sat`):
sample the interrupt flag, typecheck, lower, and assert, accumulating the
derived constraints of the batch's fresh converter. -/
inductive BatchStep where
  | fail (r : RunResult)
  | fatal
  | done (asserted : List Z3Bool) (derived : List SymBool) (next : Nat)

def processBatch (samples : Nat → Bool) :
    Nat → List Z3Bool → List SymBool → List SymBool → BatchStep
  | idx, asserted, derived, [] => .done asserted derived idx
  | idx, asserted, derived, c :: rest =>
    if samples idx then .fail ⟨false, "External interrupt.", none, asserted⟩
    else if typecheck c then
      match lowerBool c with
      | .error _ => .fatal
      | .ok (e, ds) =>
        processBatch samples (idx + 1) (asserted ++ [e]) (derived ++ ds) rest
    else .fail ⟨false, typecheckFailMsg, none, asserted⟩

/-- Result of the worklist: an early returning failure, a fatal converter
`assert`, the final asserted terms with the next sample index, or fuel
exhaustion (never reached, see `loopGo_no_spin`). -/
inductive LoopOut where
  | fail (r : RunResult)
  | fatal
  | finished (asserted : List Z3Bool) (next : Nat)
  | spin

/-- The `while (current->size() != 0)` worklist of `is_sat`: sample the
flag at the head of each round, process the batch, and continue with the
constraints the converter derived.  `fuel` bounds the number of nonempty
rounds; `nuList batch + 1` is always enough (`loopGo_no_spin`). -/
def loopGo (samples : Nat → Bool) :
    Nat → Nat → List Z3Bool → List SymBool → LoopOut
  | _, idx, asserted, [] => .finished asserted idx
  | 0, _, _, _ => .spin
  | fuel + 1, idx, asserted, c :: rest =>
    if samples idx then .fail ⟨false, "External interrupt.", none, asserted⟩
    else
      match processBatch samples (idx + 1) asserted [] (c :: rest) with
      | .fail r => .fail r
      | .fatal => .fatal
      | .done a d idx' => loopGo samples fuel idx' a d

/-- The tail of `is_sat` once the worklist has finished: sample the flag
once more (`if (check_abort()) return false;`), invoke the decision
procedure, and classify its outcome
(`try { ... switch (solver_.check()) ... } catch ...`). -/
def solvePhase (samples : Nat → Bool) (oracle : List Z3Bool → CheckOutcome)
    (idx : Nat) (asserted : List Z3Bool) : SatResult :=
  if samples idx then .ret ⟨false, "External interrupt.", none, asserted⟩
  else
    match oracle asserted with
    | .unsat => .ret ⟨false, "", none, asserted⟩
    | .sat m => .ret ⟨true, "", some m, asserted⟩
    | .unknown => .ret ⟨false, "z3 gave up.", none, asserted⟩
    | .other => .assertionFailure
    | .throws msg => .ret ⟨false, "Z3 encountered error: " ++ msg, none, asserted⟩

theorem solvePhase_interrupted {samples : Nat → Bool}
    {oracle : List Z3Bool → CheckOutcome} {idx : Nat} {asserted : List Z3Bool}
    (hs : samples idx = true) :
    solvePhase samples oracle idx asserted =
      .ret ⟨false, "External interrupt.", none, asserted⟩ := by
  simp [solvePhase, hs]

theorem solvePhase_unsat {samples : Nat → Bool}
    {oracle : List Z3Bool → CheckOutcome} {idx : Nat} {asserted : List Z3Bool}
    (hs : samples idx = false) (ho : oracle asserted = .unsat) :
    solvePhase samples oracle idx asserted = .ret ⟨false, "", none, asserted⟩ := by
  simp [solvePhase, hs, ho]

theorem solvePhase_sat {samples : Nat → Bool}
    {oracle : List Z3Bool → CheckOutcome} {idx : Nat} {asserted : List Z3Bool}
    {m : Z3Model} (hs : samples idx = false) (ho : oracle asserted = .sat m) :
    solvePhase samples oracle idx asserted =
      .ret ⟨true, "", some m, asserted⟩ := by
  simp [solvePhase, hs, ho]

theorem solvePhase_unknown {samples : Nat → Bool}
    {oracle : List Z3Bool → CheckOutcome} {idx : Nat} {asserted : List Z3Bool}
    (hs : samples idx = false) (ho : oracle asserted = .unknown) :
    solvePhase samples oracle idx asserted =
      .ret ⟨false, "z3 gave up.", none, asserted⟩ := by
  simp [solvePhase, hs, ho]

theorem solvePhase_other {samples : Nat → Bool}
    {oracle : List Z3Bool → CheckOutcome} {idx : Nat} {asserted : List Z3Bool}
    (hs : samples idx = false) (ho : oracle asserted = .other) :
    solvePhase samples oracle idx asserted = .assertionFailure := by
  simp [solvePhase, hs, ho]

theorem solvePhase_throws {samples : Nat → Bool}
    {oracle : List Z3Bool → CheckOutcome} {idx : Nat} {asserted : List Z3Bool}
    {msg : String} (hs : samples idx = false) (ho : oracle asserted = .throws msg) :
    solvePhase samples oracle idx asserted =
      .ret ⟨false, "Z3 encountered error: " ++ msg, none, asserted⟩ := by
  simp [solvePhase, hs, ho]

/-- The worklist of `is_sat` (see `loopGo` and `solvePhase`). -/
def Z3Solver.is_sat (prev : SolverState) (samples : Nat → Bool)
    (oracle : List Z3Bool → CheckOutcome) (constraints : List SymBool) :
    SatResult :=
  -- Reset state: error_ = ""; model_ = 0; stop_now_.store(false); solver_.reset().
  let _st : SolverState := { prev with error := "", model := none, stopNow := false }
  -- Axiom closure, original constraints prepended.
  let all_constraints := constraints ++ backgroundFacts constraints
  -- Flatten conjunctions, then run the worklist.
  let split := split_constraints all_constraints
  match loopGo samples (nuList split + 1) 0 [] split with
  | .fail r => .ret r
  | .fatal => .assertionFailure
  | .spin => .spin
  | .finished asserted idx => solvePhase samples oracle idx asserted

theorem Z3Solver.is_sat_eq (prev : SolverState) (samples : Nat → Bool)
    (oracle : List Z3Bool → CheckOutcome) (constraints : List SymBool) :
    Z3Solver.is_sat prev samples oracle constraints =
      match loopGo samples
          (nuList (split_constraints (constraints ++ backgroundFacts constraints)) + 1) 0 []
          (split_constraints (constraints ++ backgroundFacts constraints)) with
      | .fail r => .ret r
      | .fatal => .assertionFailure
      | .spin => .spin
      | .finished asserted idx => solvePhase samples oracle idx asserted :=
  rfl

/-! ## The model decoders

`get_model_bv` reconstructs an N-bit value by evaluating 64-bit-or-fewer
extracts of the variable under the model.  The embedding receives the
model's value `V` of the variable directly; the extract of bits
`[i*64, max_bits]` then evaluates to the corresponding slice of `V`, and
`Z3_mk_bv2int(..., is_signed = true)` followed by `Z3_get_numeral_int64`
into a `uint64_t` reinterprets that slice two's-complement-signed and
then modulo `2^64` (`windowOct`).  Internal `assert`s are the `Except`
error. -/

/-- The `uint64_t oct` the C++ reads for window `i`: the signed value of
the extracted slice, reinterpreted as an unsigned 64-bit integer. -/
def windowOct (bits V i : Nat) : Nat :=
  let maxBits := if i * 64 + 63 > bits then bits - 1 else i * 64 + 63
  let w := maxBits + 1 - i * 64
  let u := (V >>> (i * 64)) % 2 ^ w
  (((if u < 2 ^ (w - 1) then (u : Int) else (u : Int) - 2 ^ w)) % ((2 : Int) ^ 64)).toNat

/-- The inner byte loop of `get_model_bv`: starting at byte position `j`,
write `count` bytes of `oct`, least significant first
(`result.get_fixed_byte(j) = (oct >> (k*8)) & 0xff`). -/
def writeBytes : List Nat → Nat → Nat → Nat → List Nat
  | res, _, 0, _ => res
  | res, j, count + 1, oct => writeBytes (res.set j (oct % 256)) (j + 1) count (oct / 256)

/-- The window loop of `get_model_bv` over `octs = (bits+63)/64` windows;
the `assert((max_bits + 1) % 8 == 0)` guards each window. -/
def gmbvGo (bits V : Nat) : Nat → Nat → List Nat → Except Unit (List Nat)
  | 0, _, res => .ok res
  | n + 1, i, res =>
    let maxBits := if i * 64 + 63 > bits then bits - 1 else i * 64 + 63
    if (maxBits + 1) % 8 = 0 then
      gmbvGo bits V n (i + 1)
        (writeBytes res (i * 8) ((maxBits + 1) / 8 - i * 8) (windowOct bits V i))
    else .error ()

/-- Decode the satisfying assignment for a bit-vector variable whose value
under the model is `V` (`Z3Solver::get_model_bv`); the result is the byte
array of the returned `cpputil::BitVector(bits)`. -/
def get_model_bv (bits V : Nat) : Except Unit (List Nat) :=
  gmbvGo bits V ((bits + 63) / 64) 0 (List.replicate ((bits + 7) / 8) 0)

/-! ## The array decoder

The model's representation of an array-sorted variable, as dispatched on
by `Z3_get_decl_kind` in `Z3Solver::get_model_array`: a chain of
`Z3_OP_STORE` point-updates over a base that is a `Z3_OP_CONST_ARRAY`, a
`Z3_OP_AS_ARRAY` function interpretation (explicit entries plus an else
value), the unhandled `Z3_OP_ARRAY_MAP` combinator, or anything else. -/

/-- Shape of the model's array expression. -/
inductive ZArrayExpr where
  | store (base : ZArrayExpr) (addr val : Nat)
  | constArray (val : Nat)
  | asArray (entries : List (Nat × Nat)) (elseVal : Nat)
  | arrayMap
  | unrecognized
  deriving DecidableEq, Repr

/-- Insert-or-assign on the decoded address map
(`addr_val_map[addr] = bv_v` on a `std::map`). -/
def setA : List (Nat × Nat) → Nat → Nat → List (Nat × Nat)
  | [], k, v => [(k, v)]
  | (k', v') :: rest, k, v =>
    if k' = k then (k, v) :: rest else (k', v') :: setA rest k v

/-- Lookup in an address map (first matching key). -/
def lookupA : List (Nat × Nat) → Nat → Option Nat
  | [], _ => none
  | (k', v') :: rest, k => if k' = k then some v' else lookupA rest k

/-- The `Z3_OP_AS_ARRAY` entry loop: each function-interpretation entry is
validated (`assert(value <= 0xff)`) and inserted. -/
def entriesFold : List (Nat × Nat) → List (Nat × Nat) → Option (List (Nat × Nat))
  | m, [] => some m
  | m, (k, v) :: rest => if v ≤ 255 then entriesFold (setA m k v) rest else none

/-- The body of `get_model_array` after the variable has been evaluated:
peel `Z3_OP_STORE` nodes (validating each stored value fits a byte) into
the accumulated map, then dispatch on the base. -/
def getModelArrayGo (m : List (Nat × Nat)) :
    ZArrayExpr → Except Unit (List (Nat × Nat) × Nat)
  | .store base addr val =>
    if val ≤ 255 then getModelArrayGo (setA m addr val) base else .error ()
  | .constArray val => if val ≤ 255 then .ok (m, val) else .error ()
  | .asArray entries elseVal =>
    match entriesFold m entries with
    | some m' => .ok (m', elseVal)
    | none => .error ()
  | .arrayMap => .ok (m, 0)      -- logged "Don't know how to handle Z3_OP_ARRAY_MAP",
                                 -- falls through to the (addr_val_map, 0) return
  | .unrecognized => .ok (m, 0)  -- logged "Couldn't parse Z3's AST for array model"

/-- Decode the satisfying assignment for an array variable whose model
expression is `e` (`Z3Solver::get_model_array`): the sparse address map
and the default byte. -/
def get_model_array (e : ZArrayExpr) : Except Unit (List (Nat × Nat) × Nat) :=
  getModelArrayGo [] e

/-- Build a store chain: `mkChain base us` layers the updates `us` over
`base`, the head of `us` outermost. -/
def mkChain (base : ZArrayExpr) : List (Nat × Nat) → ZArrayExpr
  | [] => base
  | (a, v) :: rest => .store (mkChain base rest) a v

/-- The map holding exactly the updates `us` (applied outermost first). -/
def mapOfPairs (us : List (Nat × Nat)) : List (Nat × Nat) :=
  us.foldl (fun m p => setA m p.1 p.2) []

/-! ## Properties of the conjunction flattener -/

theorem splitOne_of_not_and {c : SymBool} (h : isAnd c = false) :
    splitOne c = [c] := by
  cases c <;> first | rfl | simp [isAnd] at h

theorem splitOne_not_and (c : SymBool) : ∀ x ∈ splitOne c, isAnd x = false := by
  induction c <;> intro x hx
  case and a b iha ihb =>
    by_cases hb : isAnd b
    · simp only [splitOne, hb, if_pos, List.mem_append] at hx
      rcases hx with h | h
      · exact ihb x h
      · exact iha x h
    · simp only [splitOne, hb, if_neg, Bool.false_eq_true, not_false_iff,
        List.mem_append, List.mem_singleton] at hx
      rcases hx with h | h
      · exact iha x h
      · subst h
        simpa using hb
  all_goals simp [splitOne] at hx; subst hx; rfl

theorem splitGo_not_and :
    ∀ l acc, (∀ x ∈ acc, isAnd x = false) →
      ∀ x ∈ splitGo acc l, isAnd x = false := by
  intro l
  induction l with
  | nil => intro acc hacc x hx; exact hacc x hx
  | cons c rest ih =>
    intro acc hacc x hx
    simp only [splitGo] at hx
    refine ih _ ?_ x hx
    intro y hy
    by_cases hc : isAnd c
    · simp only [hc, if_pos, List.mem_append] at hy
      rcases hy with h | h
      · exact splitOne_not_and c y h
      · exact hacc y h
    · simp only [hc, Bool.false_eq_true, if_neg, not_false_iff,
        List.mem_append, List.mem_singleton] at hy
      rcases hy with h | h
      · exact hacc y h
      · subst h
        simpa using hc

theorem splitGo_acc_mem :
    ∀ l acc x, x ∈ acc → x ∈ splitGo acc l := by
  intro l
  induction l with
  | nil => intro acc x hx; exact hx
  | cons c rest ih =>
    intro acc x hx
    simp only [splitGo]
    apply ih
    by_cases hc : isAnd c <;> simp [hc, hx]

theorem splitGo_mem_of_not_and :
    ∀ l acc c, c ∈ l → isAnd c = false → c ∈ splitGo acc l := by
  intro l
  induction l with
  | nil => intro acc c hc; simp at hc
  | cons d rest ih =>
    intro acc c hc hna
    rcases List.mem_cons.1 hc with h | h
    · subst h
      simp only [splitGo, hna, Bool.false_eq_true, if_neg, not_false_iff]
      exact splitGo_acc_mem rest _ c (by simp)
    · simp only [splitGo]
      exact ih _ c h hna


theorem splitOne_eval (m : Z3Model) :
    ∀ c, (∀ x ∈ splitOne c, evalSymBool m x = true) ↔ evalSymBool m c = true := by
  intro c
  induction c
  case and a b iha ihb =>
    by_cases hb : isAnd b
    · simp only [splitOne, hb, if_pos]
      constructor
      · intro h
        have ha : evalSymBool m a = true :=
          iha.1 fun x hx => h x (by simp [hx])
        have hbv : evalSymBool m b = true :=
          ihb.1 fun x hx => h x (by simp [hx])
        simp [evalSymBool, ha, hbv]
      · intro h x hx
        simp only [evalSymBool, Bool.and_eq_true] at h
        rcases List.mem_append.1 hx with hx' | hx'
        · exact ihb.2 h.2 x hx'
        · exact iha.2 h.1 x hx'
    · simp only [splitOne, hb, Bool.false_eq_true, if_neg, not_false_iff]
      constructor
      · intro h
        have ha : evalSymBool m a = true :=
          iha.1 fun x hx => h x (by simp [hx])
        have hbv : evalSymBool m b = true := h b (by simp)
        simp [evalSymBool, ha, hbv]
      · intro h x hx
        simp only [evalSymBool, Bool.and_eq_true] at h
        rcases List.mem_append.1 hx with hx' | hx'
        · exact iha.2 h.1 x hx'
        · simp only [List.mem_singleton] at hx'
          subst hx'
          exact h.2
  all_goals simp [splitOne]

theorem splitGo_eval (m : Z3Model) :
    ∀ l acc, (∀ x ∈ splitGo acc l, evalSymBool m x = true) ↔
      ((∀ x ∈ acc, evalSymBool m x = true) ∧ ∀ x ∈ l, evalSymBool m x = true) := by
  intro l
  induction l with
  | nil => intro acc; simp [splitGo]
  | cons c rest ih =>
    intro acc
    simp only [splitGo]
    rw [ih]
    by_cases hc : isAnd c
    · simp only [hc, if_pos]
      constructor
      · intro h
        obtain ⟨h1, h2⟩ := h
        have hone : ∀ x ∈ splitOne c, evalSymBool m x = true :=
          fun x hx => h1 x (by simp [hx])
        refine ⟨fun x hx => h1 x (by simp [hx]), ?_⟩
        intro x hx
        rcases List.mem_cons.1 hx with h | h
        · subst h
          exact (splitOne_eval m _).1 hone
        · exact h2 x h
      · intro h
        obtain ⟨h1, h2⟩ := h
        refine ⟨?_, fun x hx => h2 x (by simp [hx])⟩
        intro x hx
        rcases List.mem_append.1 hx with h | h
        · exact (splitOne_eval m c).2 (h2 c (by simp)) x h
        · exact h1 x h
    · simp only [hc, Bool.false_eq_true, if_neg, not_false_iff]
      constructor
      · intro h
        obtain ⟨h1, h2⟩ := h
        refine ⟨fun x hx => h1 x (by simp [hx]), ?_⟩
        intro x hx
        rcases List.mem_cons.1 hx with h | h
        · subst h
          exact h1 _ (by simp)
        · exact h2 x h
      · intro h
        obtain ⟨h1, h2⟩ := h
        refine ⟨?_, fun x hx => h2 x (by simp [hx])⟩
        intro x hx
        rcases List.mem_append.1 hx with h | h
        · exact h1 x h
        · simp only [List.mem_singleton] at h
          subst h
          exact h2 _ (by simp)

theorem splitGo_all_not_and :
    ∀ l acc, (∀ x ∈ l, isAnd x = false) → splitGo acc l = acc ++ l := by
  intro l
  induction l with
  | nil => intro acc _; simp [splitGo]
  | cons c rest ih =>
    intro acc h
    have hc : isAnd c = false := h c (by simp)
    simp only [splitGo, hc, Bool.false_eq_true, if_neg, not_false_iff]
    rw [ih _ (fun x hx => h x (by simp [hx]))]
    simp

theorem splitGo_pair (a b : SymBool) :
    splitGo [] [a, b] = splitOne (SymBool.and a b) := by
  by_cases ha : isAnd a <;> by_cases hb : isAnd b <;>
    simp [splitGo, splitOne, ha, hb, splitOne_of_not_and]

theorem splitRecGo_cons_not_and (acc rest : List SymBool) (c : SymBool)
    (h : isAnd c = false) :
    splitRecGo acc (c :: rest) = splitRecGo (acc ++ [c]) rest := by
  cases c
  case and a b => exact absurd h (by simp [isAnd])
  all_goals conv_lhs => rw [splitRecGo.eq_def]

theorem splitRecGo_eq :
    ∀ n l acc, listSize l ≤ n → splitRecGo acc l = splitGo acc l := by
  intro n
  induction n with
  | zero =>
    intro l acc hle
    cases l with
    | nil => simp [splitRecGo, splitGo]
    | cons c rest =>
      exfalso
      have := termSize_pos c
      simp [listSize] at hle
      omega
  | succ n ih =>
    intro l acc hle
    cases l with
    | nil => simp [splitRecGo, splitGo]
    | cons c rest =>
      have hsz : listSize rest ≤ n := by
        have := termSize_pos c
        simp [listSize] at hle ⊢
        omega
      by_cases hc : isAnd c
      · obtain ⟨a, b, rfl⟩ : ∃ a b, c = SymBool.and a b := by
          cases c <;> simp [isAnd] at hc ⊢
        have hpair : listSize [a, b] ≤ n := by
          simp [listSize, termSize] at hle ⊢
          omega
        rw [splitRecGo, ih _ _ hpair, ih _ _ hsz, splitGo_pair]
        simp only [splitGo, isAnd, if_pos]
      · rw [splitRecGo_cons_not_and _ _ _ (by simpa using hc), ih _ _ hsz]
        simp only [splitGo, hc, Bool.false_eq_true, if_neg, not_false_iff]

/-! ## The derived-constraints measure decreases -/

theorem except_bind_ok {α β γ : Type} (x : Except γ α) (f : α → Except γ β) (b : β) :
    (x >>= f) = .ok b ↔ ∃ a, x = .ok a ∧ f a = .ok b := by
  cases x with
  | error e => simp [Bind.bind, Except.bind]
  | ok a => simp [Bind.bind, Except.bind]

theorem nuList_append (xs ys : List SymBool) :
    nuList (xs ++ ys) = nuList xs + nuList ys := by
  simp [nuList]

theorem nuList_cons (c : SymBool) (xs : List SymBool) :
    nuList (c :: xs) = nuBool c + nuList xs := by
  simp [nuList]

theorem nuList_nil : nuList [] = 0 := rfl

/-- The constraints derived while lowering a bit-vector term weigh
(together with their count) no more than the term. -/
theorem lowerBV_nu (t : SymBitVector) :
    nuList (lowerBV t).2 + (lowerBV t).2.length ≤ nuBV t := by
  induction t <;>
    simp only [lowerBV, nuBV, divisorGuard, nuBool, nuList_append, nuList_cons,
      nuList_nil, List.length_append, List.length_cons, List.length_nil] <;>
    omega

/-- The constraints derived while lowering a boolean constraint weigh
(together with their count) no more than the constraint. -/
theorem lowerBool_nu :
    ∀ c e d, lowerBool c = .ok (e, d) → nuList d + d.length ≤ nuBool c := by
  intro c
  induction c with
  | tru =>
    intro e d h
    simp only [lowerBool, Except.ok.injEq, Prod.mk.injEq] at h
    rw [← h.2]
    simp [nuList, nuBool]
  | fls =>
    intro e d h
    simp only [lowerBool, Except.ok.injEq, Prod.mk.injEq] at h
    rw [← h.2]
    simp [nuList, nuBool]
  | var name =>
    intro e d h
    simp only [lowerBool, Except.ok.injEq, Prod.mk.injEq] at h
    rw [← h.2]
    simp [nuList, nuBool]
  | and a b iha ihb =>
    intro e d h
    simp only [lowerBool, except_bind_ok] at h
    obtain ⟨ra, ha, rb, hb, h⟩ := h
    simp only [Except.ok.injEq, Prod.mk.injEq] at h
    rw [← h.2]
    have h1 := iha ra.1 ra.2 (by rw [ha])
    have h2 := ihb rb.1 rb.2 (by rw [hb])
    simp only [nuList_append, List.length_append, nuBool]
    omega
  | or a b iha ihb =>
    intro e d h
    simp only [lowerBool, except_bind_ok] at h
    obtain ⟨ra, ha, rb, hb, h⟩ := h
    simp only [Except.ok.injEq, Prod.mk.injEq] at h
    rw [← h.2]
    have h1 := iha ra.1 ra.2 (by rw [ha])
    have h2 := ihb rb.1 rb.2 (by rw [hb])
    simp only [nuList_append, List.length_append, nuBool]
    omega
  | not b ihb =>
    intro e d h
    simp only [lowerBool, except_bind_ok] at h
    obtain ⟨rb, hb, h⟩ := h
    simp only [Except.ok.injEq, Prod.mk.injEq] at h
    rw [← h.2]
    have h2 := ihb rb.1 rb.2 (by rw [hb])
    simpa [nuBool] using h2
  | xor a b iha ihb =>
    intro e d h
    simp only [lowerBool, except_bind_ok] at h
    obtain ⟨ra, ha, rb, hb, h⟩ := h
    simp only [Except.ok.injEq, Prod.mk.injEq] at h
    rw [← h.2]
    have h1 := iha ra.1 ra.2 (by rw [ha])
    have h2 := ihb rb.1 rb.2 (by rw [hb])
    simp only [nuList_append, List.length_append, nuBool]
    omega
  | implies a b iha ihb =>
    intro e d h
    simp only [lowerBool, except_bind_ok] at h
    obtain ⟨ra, ha, rb, hb, h⟩ := h
    simp only [Except.ok.injEq, Prod.mk.injEq] at h
    rw [← h.2]
    have h1 := iha ra.1 ra.2 (by rw [ha])
    have h2 := ihb rb.1 rb.2 (by rw [hb])
    simp only [nuList_append, List.length_append, nuBool]
    omega
  | iff a b iha ihb =>
    intro e d h
    simp only [lowerBool, except_bind_ok] at h
    obtain ⟨ra, ha, rb, hb, h⟩ := h
    simp only [Except.ok.injEq, Prod.mk.injEq] at h
    rw [← h.2]
    have h1 := iha ra.1 ra.2 (by rw [ha])
    have h2 := ihb rb.1 rb.2 (by rw [hb])
    simp only [nuList_append, List.length_append, nuBool]
    omega
  | eq a b =>
    intro e d h
    simp only [lowerBool, Except.ok.injEq, Prod.mk.injEq] at h
    rw [← h.2]
    have h1 := lowerBV_nu a
    have h2 := lowerBV_nu b
    simp only [nuList_append, List.length_append, nuBool]
    omega
  | lt a b =>
    intro e d h
    simp only [lowerBool, Except.ok.injEq, Prod.mk.injEq] at h
    rw [← h.2]
    have h1 := lowerBV_nu a
    have h2 := lowerBV_nu b
    simp only [nuList_append, List.length_append, nuBool]
    omega
  | le a b =>
    intro e d h
    simp only [lowerBool, Except.ok.injEq, Prod.mk.injEq] at h
    rw [← h.2]
    have h1 := lowerBV_nu a
    have h2 := lowerBV_nu b
    simp only [nuList_append, List.length_append, nuBool]
    omega
  | gt a b =>
    intro e d h
    simp only [lowerBool, Except.ok.injEq, Prod.mk.injEq] at h
    rw [← h.2]
    have h1 := lowerBV_nu a
    have h2 := lowerBV_nu b
    simp only [nuList_append, List.length_append, nuBool]
    omega
  | ge a b =>
    intro e d h
    simp only [lowerBool, Except.ok.injEq, Prod.mk.injEq] at h
    rw [← h.2]
    have h1 := lowerBV_nu a
    have h2 := lowerBV_nu b
    simp only [nuList_append, List.length_append, nuBool]
    omega
  | signLt a b =>
    intro e d h
    simp only [lowerBool, Except.ok.injEq, Prod.mk.injEq] at h
    rw [← h.2]
    have h1 := lowerBV_nu a
    have h2 := lowerBV_nu b
    simp only [nuList_append, List.length_append, nuBool]
    omega
  | signLe a b =>
    intro e d h
    simp only [lowerBool, Except.ok.injEq, Prod.mk.injEq] at h
    rw [← h.2]
    have h1 := lowerBV_nu a
    have h2 := lowerBV_nu b
    simp only [nuList_append, List.length_append, nuBool]
    omega
  | signGt a b =>
    intro e d h
    simp only [lowerBool, Except.ok.injEq, Prod.mk.injEq] at h
    rw [← h.2]
    have h1 := lowerBV_nu a
    have h2 := lowerBV_nu b
    simp only [nuList_append, List.length_append, nuBool]
    omega
  | signGe a b =>
    intro e d h
    simp only [lowerBool, Except.ok.injEq, Prod.mk.injEq] at h
    rw [← h.2]
    have h1 := lowerBV_nu a
    have h2 := lowerBV_nu b
    simp only [nuList_append, List.length_append, nuBool]
    omega
  | forAll vars a iha =>
    intro e d h
    simp only [lowerBool, except_bind_ok] at h
    obtain ⟨ra, ha, h⟩ := h
    have h2 := iha ra.1 ra.2 (by rw [ha])
    match hn : vars.length with
    | 1 =>
      rw [hn] at h
      simp only [Except.ok.injEq, Prod.mk.injEq] at h
      rw [← h.2]
      simpa [nuBool] using h2
    | 2 =>
      rw [hn] at h
      simp only [Except.ok.injEq, Prod.mk.injEq] at h
      rw [← h.2]
      simpa [nuBool] using h2
    | 3 =>
      rw [hn] at h
      simp only [Except.ok.injEq, Prod.mk.injEq] at h
      rw [← h.2]
      simpa [nuBool] using h2
    | 0 =>
      rw [hn] at h
      simp at h
    | (k + 4) =>
      rw [hn] at h
      simp at h

/-! ## Worklist lemmas -/

theorem processBatch_nu (samples : Nat → Bool) :
    ∀ batch idx asserted derived a d idx',
      processBatch samples idx asserted derived batch = .done a d idx' →
      nuList d + d.length ≤ nuList derived + derived.length + nuList batch := by
  intro batch
  induction batch with
  | nil =>
    intro idx asserted derived a d idx' h
    simp only [processBatch, BatchStep.done.injEq] at h
    rw [← h.2.1]
    simp [nuList_nil]
  | cons c rest ih =>
    intro idx asserted derived a d idx' h
    simp only [processBatch] at h
    by_cases hs : samples idx
    · simp [hs] at h
    · rw [if_neg (by simp [hs])] at h
      by_cases ht : typecheck c
      · rw [if_pos ht] at h
        cases hl : lowerBool c with
        | error u => rw [hl] at h; simp at h
        | ok p =>
          rw [hl] at h
          have := ih _ _ _ _ _ _ h
          have h2 := lowerBool_nu c p.1 p.2 (by rw [hl])
          simp only [nuList_append, List.length_append, nuList_cons] at this ⊢
          omega
      · rw [if_neg ht] at h
        simp at h

theorem loopGo_no_spin (samples : Nat → Bool) :
    ∀ fuel batch idx asserted, nuList batch + 1 ≤ fuel →
      loopGo samples fuel idx asserted batch ≠ .spin := by
  intro fuel
  induction fuel with
  | zero =>
    intro batch idx asserted hf
    omega
  | succ f ih =>
    intro batch idx asserted hf
    cases batch with
    | nil => simp [loopGo]
    | cons c rest =>
      simp only [loopGo]
      by_cases hs : samples idx
      · simp [hs]
      · rw [if_neg (by simp [hs])]
        cases hp : processBatch samples (idx + 1) asserted [] (c :: rest) with
        | fail r => simp
        | fatal => simp
        | done a d idx' =>
          have hnu := processBatch_nu samples _ _ _ _ _ _ _ hp
          simp only [nuList_nil, List.length_nil] at hnu
          cases d with
          | nil => simp [loopGo]
          | cons d1 drest =>
            apply ih
            simp only [List.length_cons] at hnu
            simp only [nuList_cons] at hnu hf ⊢
            omega

theorem is_sat_no_spin (prev : SolverState) (samples : Nat → Bool)
    (oracle : List Z3Bool → CheckOutcome) (cs : List SymBool) :
    Z3Solver.is_sat prev samples oracle cs ≠ .spin := by
  rw [Z3Solver.is_sat_eq]
  cases hl : loopGo samples
      (nuList (split_constraints (cs ++ backgroundFacts cs)) + 1) 0 []
      (split_constraints (cs ++ backgroundFacts cs)) with
  | fail r => simp
  | fatal => simp
  | spin => exact absurd hl (loopGo_no_spin samples _ _ _ _ le_rfl)
  | finished asserted idx =>
    by_cases hs : samples idx
    · simp [solvePhase, hs]
    · cases ho : oracle asserted <;> simp [solvePhase, hs, ho]

theorem processBatch_fail (samples : Nat → Bool) :
    ∀ batch idx asserted derived r,
      processBatch samples idx asserted derived batch = .fail r →
      r.ret = false ∧ r.model = none := by
  intro batch
  induction batch with
  | nil => intro idx asserted derived r h; simp [processBatch] at h
  | cons c rest ih =>
    intro idx asserted derived r h
    simp only [processBatch] at h
    by_cases hs : samples idx
    · rw [if_pos (by simp [hs])] at h
      simp only [BatchStep.fail.injEq] at h
      rw [← h]
      exact ⟨rfl, rfl⟩
    · rw [if_neg (by simp [hs])] at h
      by_cases ht : typecheck c
      · rw [if_pos ht] at h
        cases hl : lowerBool c with
        | error u => rw [hl] at h; simp at h
        | ok p => rw [hl] at h; exact ih _ _ _ _ h
      · rw [if_neg ht] at h
        simp only [BatchStep.fail.injEq] at h
        rw [← h]
        exact ⟨rfl, rfl⟩

theorem loopGo_fail (samples : Nat → Bool) :
    ∀ fuel batch idx asserted r,
      loopGo samples fuel idx asserted batch = .fail r →
      r.ret = false ∧ r.model = none := by
  intro fuel
  induction fuel with
  | zero =>
    intro batch idx asserted r h
    cases batch <;> simp [loopGo] at h
  | succ f ih =>
    intro batch idx asserted r h
    cases batch with
    | nil => simp [loopGo] at h
    | cons c rest =>
      simp only [loopGo] at h
      by_cases hs : samples idx
      · rw [if_pos (by simp [hs])] at h
        simp only [LoopOut.fail.injEq] at h
        rw [← h]
        exact ⟨rfl, rfl⟩
      · rw [if_neg (by simp [hs])] at h
        cases hp : processBatch samples (idx + 1) asserted [] (c :: rest) with
        | fail r' =>
          rw [hp] at h
          simp only [LoopOut.fail.injEq] at h
          rw [← h]
          exact processBatch_fail samples _ _ _ _ _ hp
        | fatal => rw [hp] at h; simp at h
        | done a d idx' => rw [hp] at h; exact ih _ _ _ _ h

/-! ## Signed-division divisors and their guards -/

/-- Divisors of every signed-division node occurring in a bit-vector term
(in the order the lowering engine reaches them). -/
def sdivDivisorsBV : SymBitVector → List SymBitVector
  | .var _ _ => []
  | .const _ _ => []
  | .and a b => sdivDivisorsBV a ++ sdivDivisorsBV b
  | .or a b => sdivDivisorsBV a ++ sdivDivisorsBV b
  | .xor a b => sdivDivisorsBV a ++ sdivDivisorsBV b
  | .not bv => sdivDivisorsBV bv
  | .plus a b => sdivDivisorsBV a ++ sdivDivisorsBV b
  | .minus a b => sdivDivisorsBV a ++ sdivDivisorsBV b
  | .mult a b => sdivDivisorsBV a ++ sdivDivisorsBV b
  | .div a b => sdivDivisorsBV a ++ sdivDivisorsBV b
  | .mod a b => sdivDivisorsBV a ++ sdivDivisorsBV b
  | .signDiv a b => b :: (sdivDivisorsBV a ++ sdivDivisorsBV b)
  | .signMod a b => sdivDivisorsBV a ++ sdivDivisorsBV b
  | .shiftLeft a b => sdivDivisorsBV a ++ sdivDivisorsBV b
  | .shiftRight a b => sdivDivisorsBV a ++ sdivDivisorsBV b
  | .signShiftRight a b => sdivDivisorsBV a ++ sdivDivisorsBV b
  | .uminus bv => sdivDivisorsBV bv
  | .concat a b => sdivDivisorsBV a ++ sdivDivisorsBV b
  | .extract _ _ bv => sdivDivisorsBV bv
  | .signExtend _ bv => sdivDivisorsBV bv

/-- Divisors of every signed-division node occurring in a boolean
constraint. -/
def sdivDivisorsBool : SymBool → List SymBitVector
  | .tru => []
  | .fls => []
  | .var _ => []
  | .and a b => sdivDivisorsBool a ++ sdivDivisorsBool b
  | .or a b => sdivDivisorsBool a ++ sdivDivisorsBool b
  | .not b => sdivDivisorsBool b
  | .xor a b => sdivDivisorsBool a ++ sdivDivisorsBool b
  | .implies a b => sdivDivisorsBool a ++ sdivDivisorsBool b
  | .iff a b => sdivDivisorsBool a ++ sdivDivisorsBool b
  | .eq a b => sdivDivisorsBV a ++ sdivDivisorsBV b
  | .lt a b => sdivDivisorsBV a ++ sdivDivisorsBV b
  | .le a b => sdivDivisorsBV a ++ sdivDivisorsBV b
  | .gt a b => sdivDivisorsBV a ++ sdivDivisorsBV b
  | .ge a b => sdivDivisorsBV a ++ sdivDivisorsBV b
  | .signLt a b => sdivDivisorsBV a ++ sdivDivisorsBV b
  | .signLe a b => sdivDivisorsBV a ++ sdivDivisorsBV b
  | .signGt a b => sdivDivisorsBV a ++ sdivDivisorsBV b
  | .signGe a b => sdivDivisorsBV a ++ sdivDivisorsBV b
  | .forAll _ a => sdivDivisorsBool a

/-- The constraints a bit-vector lowering derives are exactly the divisor
guards of its signed-division nodes, in order. -/
theorem lowerBV_derived_eq (t : SymBitVector) :
    (lowerBV t).2 = (sdivDivisorsBV t).map divisorGuard := by
  induction t <;>
    simp only [lowerBV, sdivDivisorsBV, List.map_append, List.map_cons,
      List.map_nil] <;>
    simp_all

/-- The constraints a successful boolean lowering derives are exactly the
divisor guards of the constraint's signed-division nodes, in order. -/
theorem lowerBool_derived_eq :
    ∀ c e d, lowerBool c = .ok (e, d) →
      d = (sdivDivisorsBool c).map divisorGuard := by
  intro c
  induction c with
  | tru =>
    intro e d h
    simp only [lowerBool, Except.ok.injEq, Prod.mk.injEq] at h
    rw [← h.2]
    simp [sdivDivisorsBool]
  | fls =>
    intro e d h
    simp only [lowerBool, Except.ok.injEq, Prod.mk.injEq] at h
    rw [← h.2]
    simp [sdivDivisorsBool]
  | var name =>
    intro e d h
    simp only [lowerBool, Except.ok.injEq, Prod.mk.injEq] at h
    rw [← h.2]
    simp [sdivDivisorsBool]
  | and a b iha ihb =>
    intro e d h
    simp only [lowerBool, except_bind_ok] at h
    obtain ⟨ra, ha, rb, hb, h⟩ := h
    simp only [Except.ok.injEq, Prod.mk.injEq] at h
    rw [← h.2, iha ra.1 ra.2 (by rw [ha]), ihb rb.1 rb.2 (by rw [hb])]
    simp [sdivDivisorsBool]
  | or a b iha ihb =>
    intro e d h
    simp only [lowerBool, except_bind_ok] at h
    obtain ⟨ra, ha, rb, hb, h⟩ := h
    simp only [Except.ok.injEq, Prod.mk.injEq] at h
    rw [← h.2, iha ra.1 ra.2 (by rw [ha]), ihb rb.1 rb.2 (by rw [hb])]
    simp [sdivDivisorsBool]
  | not b ihb =>
    intro e d h
    simp only [lowerBool, except_bind_ok] at h
    obtain ⟨rb, hb, h⟩ := h
    simp only [Except.ok.injEq, Prod.mk.injEq] at h
    rw [← h.2, ihb rb.1 rb.2 (by rw [hb])]
    simp [sdivDivisorsBool]
  | xor a b iha ihb =>
    intro e d h
    simp only [lowerBool, except_bind_ok] at h
    obtain ⟨ra, ha, rb, hb, h⟩ := h
    simp only [Except.ok.injEq, Prod.mk.injEq] at h
    rw [← h.2, iha ra.1 ra.2 (by rw [ha]), ihb rb.1 rb.2 (by rw [hb])]
    simp [sdivDivisorsBool]
  | implies a b iha ihb =>
    intro e d h
    simp only [lowerBool, except_bind_ok] at h
    obtain ⟨ra, ha, rb, hb, h⟩ := h
    simp only [Except.ok.injEq, Prod.mk.injEq] at h
    rw [← h.2, iha ra.1 ra.2 (by rw [ha]), ihb rb.1 rb.2 (by rw [hb])]
    simp [sdivDivisorsBool]
  | iff a b iha ihb =>
    intro e d h
    simp only [lowerBool, except_bind_ok] at h
    obtain ⟨ra, ha, rb, hb, h⟩ := h
    simp only [Except.ok.injEq, Prod.mk.injEq] at h
    rw [← h.2, iha ra.1 ra.2 (by rw [ha]), ihb rb.1 rb.2 (by rw [hb])]
    simp [sdivDivisorsBool]
  | eq a b =>
    intro e d h
    simp only [lowerBool, Except.ok.injEq, Prod.mk.injEq] at h
    rw [← h.2, lowerBV_derived_eq a, lowerBV_derived_eq b]
    simp [sdivDivisorsBool]
  | lt a b =>
    intro e d h
    simp only [lowerBool, Except.ok.injEq, Prod.mk.injEq] at h
    rw [← h.2, lowerBV_derived_eq a, lowerBV_derived_eq b]
    simp [sdivDivisorsBool]
  | le a b =>
    intro e d h
    simp only [lowerBool, Except.ok.injEq, Prod.mk.injEq] at h
    rw [← h.2, lowerBV_derived_eq a, lowerBV_derived_eq b]
    simp [sdivDivisorsBool]
  | gt a b =>
    intro e d h
    simp only [lowerBool, Except.ok.injEq, Prod.mk.injEq] at h
    rw [← h.2, lowerBV_derived_eq a, lowerBV_derived_eq b]
    simp [sdivDivisorsBool]
  | ge a b =>
    intro e d h
    simp only [lowerBool, Except.ok.injEq, Prod.mk.injEq] at h
    rw [← h.2, lowerBV_derived_eq a, lowerBV_derived_eq b]
    simp [sdivDivisorsBool]
  | signLt a b =>
    intro e d h
    simp only [lowerBool, Except.ok.injEq, Prod.mk.injEq] at h
    rw [← h.2, lowerBV_derived_eq a, lowerBV_derived_eq b]
    simp [sdivDivisorsBool]
  | signLe a b =>
    intro e d h
    simp only [lowerBool, Except.ok.injEq, Prod.mk.injEq] at h
    rw [← h.2, lowerBV_derived_eq a, lowerBV_derived_eq b]
    simp [sdivDivisorsBool]
  | signGt a b =>
    intro e d h
    simp only [lowerBool, Except.ok.injEq, Prod.mk.injEq] at h
    rw [← h.2, lowerBV_derived_eq a, lowerBV_derived_eq b]
    simp [sdivDivisorsBool]
  | signGe a b =>
    intro e d h
    simp only [lowerBool, Except.ok.injEq, Prod.mk.injEq] at h
    rw [← h.2, lowerBV_derived_eq a, lowerBV_derived_eq b]
    simp [sdivDivisorsBool]
  | forAll vars a iha =>
    intro e d h
    simp only [lowerBool, except_bind_ok] at h
    obtain ⟨ra, ha, h⟩ := h
    match hn : vars.length with
    | 1 =>
      rw [hn] at h
      simp only [Except.ok.injEq, Prod.mk.injEq] at h
      rw [← h.2, iha ra.1 ra.2 (by rw [ha])]
      simp [sdivDivisorsBool]
    | 2 =>
      rw [hn] at h
      simp only [Except.ok.injEq, Prod.mk.injEq] at h
      rw [← h.2, iha ra.1 ra.2 (by rw [ha])]
      simp [sdivDivisorsBool]
    | 3 =>
      rw [hn] at h
      simp only [Except.ok.injEq, Prod.mk.injEq] at h
      rw [← h.2, iha ra.1 ra.2 (by rw [ha])]
      simp [sdivDivisorsBool]
    | 0 => rw [hn] at h; simp at h
    | (k + 4) => rw [hn] at h; simp at h

/-- Lowering the divisor guard of `b` yields the Z3 inequation
`not (lowered b = 0)` (and re-derives the guards inside `b`). -/
theorem lower_divisorGuard (b : SymBitVector) :
    lowerBool (divisorGuard b) =
      .ok (Z3Bool.not (Z3Bool.eqBV (lowerBV b).1 (Z3BV.num b.width 0)),
        (lowerBV b).2) := by
  simp [divisorGuard, lowerBool, lowerBV, Bind.bind, Except.bind]

/-! ## Every constraint processed by the worklist is asserted, together
with its derived constraints -/

/-- A constraint is settled with respect to the final asserted set `A` if
it lowers successfully, its lowered form is asserted, and all constraints
it derives are settled in turn. -/
inductive Settled (A : List Z3Bool) : SymBool → Prop where
  | intro {c : SymBool} {e : Z3Bool} {d : List SymBool}
      (h1 : lowerBool c = .ok (e, d)) (h2 : e ∈ A)
      (h3 : ∀ c' ∈ d, Settled A c') : Settled A c

theorem processBatch_spec (samples : Nat → Bool) :
    ∀ batch idx asserted derived a d idx',
      processBatch samples idx asserted derived batch = .done a d idx' →
      (∀ e ∈ asserted, e ∈ a) ∧ (∀ c' ∈ derived, c' ∈ d) ∧
        (∀ c ∈ batch, ∃ e ds, lowerBool c = .ok (e, ds) ∧ e ∈ a ∧
          ∀ c' ∈ ds, c' ∈ d) := by
  intro batch
  induction batch with
  | nil =>
    intro idx asserted derived a d idx' h
    simp only [processBatch, BatchStep.done.injEq] at h
    refine ⟨fun e he => ?_, fun c' hc' => ?_, by simp⟩
    · rw [← h.1]; exact he
    · rw [← h.2.1]; exact hc'
  | cons c rest ih =>
    intro idx asserted derived a d idx' h
    simp only [processBatch] at h
    by_cases hs : samples idx
    · rw [if_pos (by simp [hs])] at h; simp at h
    · rw [if_neg (by simp [hs])] at h
      by_cases ht : typecheck c
      · rw [if_pos ht] at h
        cases hl : lowerBool c with
        | error u => rw [hl] at h; simp at h
        | ok p =>
          rw [hl] at h
          obtain ⟨hmem, hder, hall⟩ := ih _ _ _ _ _ _ h
          refine ⟨fun e he => hmem e (by simp [he]),
            fun c' hc' => hder c' (by simp [hc']), ?_⟩
          intro c0 hc0
          rcases List.mem_cons.1 hc0 with hc0 | hc0
          · subst hc0
            exact ⟨p.1, p.2, by rw [hl], hmem p.1 (by simp),
              fun c' hc' => hder c' (by simp [hc'])⟩
          · exact hall c0 hc0
      · rw [if_neg ht] at h; simp at h

theorem loopGo_spec (samples : Nat → Bool) :
    ∀ fuel batch idx asserted A idx',
      loopGo samples fuel idx asserted batch = .finished A idx' →
      (∀ e ∈ asserted, e ∈ A) ∧ ∀ c ∈ batch, Settled A c := by
  intro fuel
  induction fuel with
  | zero =>
    intro batch idx asserted A idx' h
    cases batch with
    | nil =>
      simp only [loopGo, LoopOut.finished.injEq] at h
      exact ⟨fun e he => by rw [← h.1]; exact he, by simp⟩
    | cons c rest => simp [loopGo] at h
  | succ f ih =>
    intro batch idx asserted A idx' h
    cases batch with
    | nil =>
      simp only [loopGo, LoopOut.finished.injEq] at h
      exact ⟨fun e he => by rw [← h.1]; exact he, by simp⟩
    | cons c rest =>
      simp only [loopGo] at h
      by_cases hs : samples idx
      · rw [if_pos (by simp [hs])] at h; simp at h
      · rw [if_neg (by simp [hs])] at h
        cases hp : processBatch samples (idx + 1) asserted [] (c :: rest) with
        | fail r => rw [hp] at h; simp at h
        | fatal => rw [hp] at h; simp at h
        | done a d idx'' =>
          rw [hp] at h
          obtain ⟨hsub, hder⟩ := ih _ _ _ _ _ h
          obtain ⟨hmem, -, hall⟩ := processBatch_spec samples _ _ _ _ _ _ _ hp
          refine ⟨fun e he => hsub e (hmem e he), ?_⟩
          intro c0 hc0
          obtain ⟨e, ds, hl, hea, hds⟩ := hall c0 hc0
          exact Settled.intro hl (hsub e hea) fun c' hc' => hder c' (hds c' hc')

/-- If a constraint is settled, the lowered divisor guard of every
signed-division node in it is asserted. -/
theorem Settled.guards {A : List Z3Bool} {c : SymBool} (h : Settled A c) :
    ∀ b ∈ sdivDivisorsBool c,
      Z3Bool.not (Z3Bool.eqBV (lowerBV b).1 (Z3BV.num b.width 0)) ∈ A := by
  intro b hb
  obtain ⟨h1, h2, h3⟩ := h
  have hd := lowerBool_derived_eq _ _ _ h1
  have hset := h3 (divisorGuard b)
    (by rw [hd]; exact List.mem_map_of_mem divisorGuard hb)
  obtain ⟨h1', h2', h3'⟩ := hset
  rw [lower_divisorGuard b] at h1'
  simp only [Except.ok.injEq, Prod.mk.injEq] at h1'
  rw [← h1'.1] at h2'
  exact h2'

/-- Splitting preserves the signed-division nodes of a constraint: every
divisor in a split constraint is a divisor of some output element. -/
theorem splitOne_divisors :
    ∀ c, ∀ b ∈ sdivDivisorsBool c, ∃ c' ∈ splitOne c, b ∈ sdivDivisorsBool c' := by
  intro c
  induction c
  case and p q ihp ihq =>
    intro b hb
    simp only [sdivDivisorsBool, List.mem_append] at hb
    by_cases hq : isAnd q
    · rcases hb with h | h
      · obtain ⟨c', hc', hbc⟩ := ihp b h
        exact ⟨c', by simp [splitOne, hq, hc'], hbc⟩
      · obtain ⟨c', hc', hbc⟩ := ihq b h
        exact ⟨c', by simp [splitOne, hq, hc'], hbc⟩
    · rcases hb with h | h
      · obtain ⟨c', hc', hbc⟩ := ihp b h
        exact ⟨c', by simp [splitOne, hq, hc'], hbc⟩
      · exact ⟨q, by simp [splitOne, hq], h⟩
  all_goals (intro b hb; exact ⟨_, by simp [splitOne], hb⟩)

theorem splitGo_divisors :
    ∀ l acc c b, c ∈ l → b ∈ sdivDivisorsBool c →
      ∃ c', c' ∈ splitGo acc l ∧ b ∈ sdivDivisorsBool c' := by
  intro l
  induction l with
  | nil => intro acc c b hc; simp at hc
  | cons c0 rest ih =>
    intro acc c b hc hb
    rcases List.mem_cons.1 hc with rfl | h
    · obtain ⟨c', hc', hbc⟩ := splitOne_divisors c b hb
      by_cases hd : isAnd c
      · refine ⟨c', ?_, hbc⟩
        simp only [splitGo, hd, if_pos]
        exact splitGo_acc_mem rest _ c' (by simp [hc'])
      · rw [splitOne_of_not_and (by simpa using hd)] at hc'
        simp only [List.mem_singleton] at hc'
        subst hc'
        refine ⟨c', ?_, hbc⟩
        simp only [splitGo, hd, Bool.false_eq_true, if_neg, not_false_iff]
        exact splitGo_acc_mem rest _ c' (by simp)
    · simp only [splitGo]
      exact ih _ c b h hb

/-- Full case analysis of a returning `is_sat` call: either the call
failed (false, no model) or the worklist finished, the pre-solve sample
was negative, and the oracle said `sat`. -/
theorem is_sat_ret_cases :
    ∀ prev samples oracle cs r,
      Z3Solver.is_sat prev samples oracle cs = .ret r →
      (r.ret = false ∧ r.model = none) ∨
      (∃ idx m,
        loopGo samples (nuList (split_constraints (cs ++ backgroundFacts cs)) + 1)
            0 [] (split_constraints (cs ++ backgroundFacts cs)) =
          .finished r.asserted idx ∧
        samples idx = false ∧ oracle r.asserted = .sat m ∧
        r = ⟨true, "", some m, r.asserted⟩) := by
  intro prev samples oracle cs r h
  rw [Z3Solver.is_sat_eq] at h
  cases hl : loopGo samples
      (nuList (split_constraints (cs ++ backgroundFacts cs)) + 1) 0 []
      (split_constraints (cs ++ backgroundFacts cs)) with
  | fail r' =>
    rw [hl] at h
    simp only [SatResult.ret.injEq] at h
    subst h
    exact Or.inl (loopGo_fail samples _ _ _ _ _ hl)
  | fatal => rw [hl] at h; simp at h
  | spin => rw [hl] at h; simp at h
  | finished A idx =>
    rw [hl] at h
    replace h : solvePhase samples oracle idx A = SatResult.ret r := h
    by_cases hs : samples idx
    · rw [solvePhase_interrupted hs] at h
      simp only [SatResult.ret.injEq] at h
      subst h
      exact Or.inl ⟨rfl, rfl⟩
    · replace hs : samples idx = false := by simpa using hs
      cases ho : oracle A with
      | unsat =>
        rw [solvePhase_unsat hs ho] at h
        simp only [SatResult.ret.injEq] at h
        subst h
        exact Or.inl ⟨rfl, rfl⟩
      | sat m =>
        rw [solvePhase_sat hs ho] at h
        simp only [SatResult.ret.injEq] at h
        subst h
        exact Or.inr ⟨idx, m, rfl, hs, ho, rfl⟩
      | unknown =>
        rw [solvePhase_unknown hs ho] at h
        simp only [SatResult.ret.injEq] at h
        subst h
        exact Or.inl ⟨rfl, rfl⟩
      | other => rw [solvePhase_other hs ho] at h; simp at h
      | throws msg =>
        rw [solvePhase_throws hs ho] at h
        simp only [SatResult.ret.injEq] at h
        subst h
        exact Or.inl ⟨rfl, rfl⟩

/-! ## Claim C4: the conjunction flattener -/

/-- C4: `split_constraints` returns a sequence with no top-level AND node;
every non-AND input element passes through into the output; the
conjunction of the output is logically equivalent (under every model) to
the conjunction of the input; the function is idempotent; and the
structurally recursive version used by the pipeline agrees with the
literal transcription `split_constraints_rec` of the C++ recursion. -/
theorem c4_flattener :
    (∀ cs, ∀ x ∈ split_constraints cs, isAnd x = false) ∧
    (∀ cs c, c ∈ cs → isAnd c = false → c ∈ split_constraints cs) ∧
    (∀ cs m, (∀ x ∈ split_constraints cs, evalSymBool m x = true) ↔
      (∀ x ∈ cs, evalSymBool m x = true)) ∧
    (∀ cs, split_constraints (split_constraints cs) = split_constraints cs) ∧
    (∀ cs, split_constraints_rec cs = split_constraints cs) := by
  refine ⟨?_, ?_, ?_, ?_, ?_⟩
  · intro cs x hx
    exact splitGo_not_and cs [] (by simp) x hx
  · intro cs c hc hna
    exact splitGo_mem_of_not_and cs [] c hc hna
  · intro cs m
    rw [split_constraints, splitGo_eval]
    simp
  · intro cs
    have h : ∀ x ∈ split_constraints cs, isAnd x = false :=
      splitGo_not_and cs [] (by simp)
    show splitGo [] (split_constraints cs) = split_constraints cs
    rw [splitGo_all_not_and _ _ h]
    simp
  · intro cs
    exact splitRecGo_eq (listSize cs) cs [] le_rfl

theorem c4_flattener_witness :
    SymBool.var "c" ∈ split_constraints
      [SymBool.and (SymBool.var "a") (SymBool.var "b"), SymBool.var "c"] :=
  c4_flattener.2.1 _ (SymBool.var "c") (by decide) (by decide)

/-! ## Claim C1: the signed-division divisor guard -/

/-- C1: lowering a signed division pushes the non-zero-divisor guard onto
the pending batch (before the guards derived inside the operands), and on
any `is_sat` run that reaches the solver and returns true, a model that
satisfies every asserted term gives a non-zero value to the lowered
divisor of every signed-division node of the constraint set. -/
theorem c1_signed_division_guard :
    (∀ a b, (lowerBV (SymBitVector.signDiv a b)).2 =
        divisorGuard b :: ((lowerBV a).2 ++ (lowerBV b).2)) ∧
    (∀ prev samples oracle cs r M,
      Z3Solver.is_sat prev samples oracle cs = .ret r → r.ret = true →
      (∀ e ∈ r.asserted, evalZ3Bool M e = true) →
      ∀ c ∈ cs, ∀ b ∈ sdivDivisorsBool c, evalZ3BV M (lowerBV b).1 ≠ 0) := by
  constructor
  · intro a b
    rfl
  · intro prev samples oracle cs r M h hr hm c hc b hb
    rcases is_sat_ret_cases prev samples oracle cs r h with ⟨hf, -⟩ | ⟨idx, m, hl, -, -, -⟩
    · rw [hr] at hf
      exact absurd hf (by simp)
    · obtain ⟨c', hc', hbc⟩ := splitGo_divisors (cs ++ backgroundFacts cs) [] c b
        (List.mem_append_left _ hc) hb
      have hsettled := (loopGo_spec samples _ _ _ _ _ _ hl).2 c' hc'
      have hguard := hsettled.guards b hbc
      have hev := hm _ hguard
      simp [evalZ3Bool, evalZ3BV] at hev
      exact hev

/-- A blank previous solver state. -/
def prevBlank : SolverState := ⟨"", none, false⟩

/-- A flag stream that never signals an interrupt. -/
def samplesQuiet : Nat → Bool := fun _ => false

/-- A concrete model: `x = 6`, `y = 2`, all other constants zero / false. -/
def mSd : Z3Model :=
  ⟨fun n _ => if n = "x" then 6 else if n = "y" then 2 else 0, fun _ => false⟩

/-- An oracle that always reports `sat` with the model `mSd`. -/
def oracleSd : List Z3Bool → CheckOutcome := fun _ => .sat mSd

/-- The constraint `x sdiv y = 3` over 8-bit variables. -/
def csSd : List SymBool :=
  [SymBool.eq
    (SymBitVector.signDiv (SymBitVector.var "x" 8) (SymBitVector.var "y" 8))
    (SymBitVector.const 8 3)]

/-- The observable result of running `is_sat` on `csSd`: sat, with the
lowered constraint and the derived divisor guard both asserted. -/
def rSd : RunResult :=
  ⟨true, "", some mSd,
    [Z3Bool.eqBV (Z3BV.bvsdiv (Z3BV.var "x" 8) (Z3BV.var "y" 8)) (Z3BV.num 8 3),
      Z3Bool.not (Z3Bool.eqBV (Z3BV.var "y" 8) (Z3BV.num 8 0))]⟩

theorem c1_signed_division_guard_witness :
    evalZ3BV mSd (lowerBV (SymBitVector.var "y" 8)).1 ≠ 0 :=
  c1_signed_division_guard.2 prevBlank samplesQuiet oracleSd csSd rSd mSd
    (by rfl) (by rfl) (by decide)
    (SymBool.eq
      (SymBitVector.signDiv (SymBitVector.var "x" 8) (SymBitVector.var "y" 8))
      (SymBitVector.const 8 3)) (by decide)
    (SymBitVector.var "y" 8) (by decide)

/-! ## Claim C2: the ternary outcome classification -/

/-- C2: when the worklist finishes and the pre-solve sample is negative,
the solver outcome is classified into exactly three reported kinds —
`unsat` returns false with no model and no error, `sat` returns true and
retains the model, `unknown` returns false with the distinct error
"z3 gave up." — and the impossible fourth outcome is an internal
assertion failure, not a reported error. -/
theorem c2_outcome_classification :
    ∀ prev samples oracle cs A idx,
      loopGo samples (nuList (split_constraints (cs ++ backgroundFacts cs)) + 1)
          0 [] (split_constraints (cs ++ backgroundFacts cs)) = .finished A idx →
      samples idx = false →
      ((oracle A = .unsat →
        Z3Solver.is_sat prev samples oracle cs = .ret ⟨false, "", none, A⟩) ∧
      (∀ m, oracle A = .sat m →
        Z3Solver.is_sat prev samples oracle cs = .ret ⟨true, "", some m, A⟩) ∧
      (oracle A = .unknown →
        Z3Solver.is_sat prev samples oracle cs =
          .ret ⟨false, "z3 gave up.", none, A⟩) ∧
      (oracle A = .other →
        Z3Solver.is_sat prev samples oracle cs = .assertionFailure)) := by
  intro prev samples oracle cs A idx hl hs
  have key : Z3Solver.is_sat prev samples oracle cs = solvePhase samples oracle idx A := by
    rw [Z3Solver.is_sat_eq, hl]
  refine ⟨?_, ?_, ?_, ?_⟩
  · intro ho
    rw [key, solvePhase_unsat hs ho]
  · intro m ho
    rw [key, solvePhase_sat hs ho]
  · intro ho
    rw [key, solvePhase_unknown hs ho]
  · intro ho
    rw [key, solvePhase_other hs ho]

/-- An oracle that always reports `unknown`. -/
def oracleUnknown : List Z3Bool → CheckOutcome := fun _ => .unknown

theorem c2_outcome_classification_witness :
    Z3Solver.is_sat prevBlank samplesQuiet oracleUnknown [SymBool.var "b"] =
      .ret ⟨false, "z3 gave up.", none, [Z3Bool.var "b"]⟩ :=
  (c2_outcome_classification prevBlank samplesQuiet oracleUnknown
    [SymBool.var "b"] [Z3Bool.var "b"] 2 (by rfl) (by rfl)).2.2.1 rfl

/-! ## Claim C3: interrupt-flag sampling

The C++ `is_sat` begins with `stop_now_.store(false)`, so a flag value
set before the call is discarded; only a flag raised after that reset (at
one of the sampling points) aborts the call.  The counterexample below
runs `is_sat` with the flag set in the previous state and no interrupt
arriving afterwards: the call succeeds. -/

/-- A previous solver state whose interrupt flag is set. -/
def prevStopped : SolverState := ⟨"", none, true⟩

/-- A trivial model (all constants zero, all booleans true). -/
def mB : Z3Model := ⟨fun _ _ => 0, fun _ => true⟩

/-- An oracle that always reports `sat` with the model `mB`. -/
def oracleSatB : List Z3Bool → CheckOutcome := fun _ => .sat mB

theorem c3_interrupt_counterexample :
    Z3Solver.is_sat prevStopped samplesQuiet oracleSatB [SymBool.var "b"] =
      .ret ⟨true, "", some mB, [Z3Bool.var "b"]⟩ ∧
    RunResult.ret ⟨true, "", some mB, [Z3Bool.var "b"]⟩ = true ∧
    RunResult.error ⟨true, "", some mB, [Z3Bool.var "b"]⟩ ≠ "External interrupt." :=
  ⟨rfl, rfl, by decide⟩

/-- C3 (amended): the interrupt flag is reset at the start of `is_sat`,
so its value before the call has no effect; the reset flag is then
sampled at the head of each worklist round, before each atomic
constraint's lowering, and immediately before invoking the solver, and a
positive sample makes the call fail with the "External interrupt." error
and no model. -/
theorem c3_interrupt_sampling :
    (∀ prev prev' samples oracle cs,
      Z3Solver.is_sat prev samples oracle cs =
        Z3Solver.is_sat prev' samples oracle cs) ∧
    (∀ prev samples oracle cs,
      split_constraints (cs ++ backgroundFacts cs) ≠ [] → samples 0 = true →
      Z3Solver.is_sat prev samples oracle cs =
        .ret ⟨false, "External interrupt.", none, []⟩) ∧
    (∀ samples idx asserted derived c rest, samples idx = true →
      processBatch samples idx asserted derived (c :: rest) =
        .fail ⟨false, "External interrupt.", none, asserted⟩) ∧
    (∀ prev samples oracle cs A idx,
      loopGo samples (nuList (split_constraints (cs ++ backgroundFacts cs)) + 1)
          0 [] (split_constraints (cs ++ backgroundFacts cs)) = .finished A idx →
      samples idx = true →
      Z3Solver.is_sat prev samples oracle cs =
        .ret ⟨false, "External interrupt.", none, A⟩) := by
  refine ⟨?_, ?_, ?_, ?_⟩
  · intro prev prev' samples oracle cs
    rfl
  · intro prev samples oracle cs hne hs0
    rw [Z3Solver.is_sat_eq]
    cases hsp : split_constraints (cs ++ backgroundFacts cs) with
    | nil => exact absurd hsp hne
    | cons c rest =>
      simp [loopGo, hs0]
  · intro samples idx asserted derived c rest h
    simp [processBatch, h]
  · intro prev samples oracle cs A idx hl hs
    have key : Z3Solver.is_sat prev samples oracle cs =
        solvePhase samples oracle idx A := by
      rw [Z3Solver.is_sat_eq, hl]
    rw [key, solvePhase_interrupted hs]

/-- A flag stream that signals an interrupt at every sample. -/
def samplesNow : Nat → Bool := fun _ => true

theorem c3_interrupt_sampling_witness :
    Z3Solver.is_sat prevBlank samplesNow oracleUnknown [SymBool.var "b"] =
      .ret ⟨false, "External interrupt.", none, []⟩ :=
  c3_interrupt_sampling.2.1 prevBlank samplesNow oracleUnknown [SymBool.var "b"]
    (by decide) rfl

/-! ## Claim C10: the model-retention invariant -/

/-- C10: `is_sat` overwrites the previous error, model, and interrupt
flag, so the result does not depend on the previous state; whenever the
call returns, it returns true exactly when a model handle is retained,
and the handle retained on true is the fresh model of this call's `sat`
outcome. -/
theorem c10_model_invariant :
    (∀ prev prev' samples oracle cs,
      Z3Solver.is_sat prev samples oracle cs =
        Z3Solver.is_sat prev' samples oracle cs) ∧
    (∀ prev samples oracle cs r,
      Z3Solver.is_sat prev samples oracle cs = .ret r →
      ((r.ret = true ↔ r.model.isSome = true) ∧
        (r.ret = true → ∃ m, r.model = some m ∧ oracle r.asserted = .sat m))) := by
  constructor
  · intro prev prev' samples oracle cs
    rfl
  · intro prev samples oracle cs r h
    rcases is_sat_ret_cases prev samples oracle cs r h with ⟨hf, hm⟩ | ⟨idx, m, -, -, ho, hr⟩
    · constructor
      · rw [hf, hm]
        simp
      · intro ht
        rw [ht] at hf
        simp at hf
    · have h1 : r.ret = true := by rw [hr]
      have h2 : r.model = some m := by rw [hr]
      exact ⟨by simp [h1, h2], fun _ => ⟨m, h2, ho⟩⟩

theorem c10_model_invariant_witness :
    (rSd.ret = true ↔ rSd.model.isSome = true) ∧
    (rSd.ret = true → ∃ m, rSd.model = some m ∧ oracleSd rSd.asserted = .sat m) :=
  c10_model_invariant.2 prevBlank samplesQuiet oracleSd csSd rSd (by rfl)

/-! ## Claim C7: quantifier arity -/

/-- C7: lowering a universal quantifier over one, two or three bound
variables produces the solver quantifier directly; with four or more
bound variables the converter hits its fatal `assert(false)` instead of
producing a term. -/
theorem c7_quantifier_arity :
    (∀ vars body e d, (vars.length = 1 ∨ vars.length = 2 ∨ vars.length = 3) →
      lowerBool body = .ok (e, d) →
      lowerBool (SymBool.forAll vars body) = .ok (.forallE vars e, d)) ∧
    (∀ vars body, 4 ≤ vars.length →
      lowerBool (SymBool.forAll vars body) = .error ()) := by
  constructor
  · intro vars body e d hn hb
    rcases hn with h | h | h <;> simp [lowerBool, hb, h, Bind.bind, Except.bind]
  · intro vars body hn
    obtain ⟨k, hk⟩ : ∃ k, vars.length = k + 4 := ⟨vars.length - 4, by omega⟩
    cases hb : lowerBool body with
    | error u => simp [lowerBool, hb, Bind.bind, Except.bind]
    | ok p => simp [lowerBool, hb, hk, Bind.bind, Except.bind]

theorem c7_quantifier_arity_witness :
    lowerBool (SymBool.forAll [("v", 8)]
        (SymBool.eq (SymBitVector.var "v" 8) (SymBitVector.var "v" 8))) =
      .ok (.forallE [("v", 8)]
        (.eqBV (Z3BV.var "v" 8) (Z3BV.var "v" 8)), []) ∧
    lowerBool (SymBool.forAll [("v", 8), ("w", 8), ("u", 8), ("t", 8)]
        SymBool.tru) = .error () :=
  ⟨c7_quantifier_arity.1 [("v", 8)] _ _ [] (Or.inl rfl) (by rfl),
    c7_quantifier_arity.2 [("v", 8), ("w", 8), ("u", 8), ("t", 8)] SymBool.tru
      (by decide)⟩

/-! ## Claim C9: only signed division emits a divisor guard -/

/-- A concrete model with `x = 7` and every other constant zero: in
particular the divisor `y` is zero. -/
def mZeroDiv : Z3Model := ⟨fun n _ => if n = "x" then 7 else 0, fun _ => false⟩

/-- An oracle that always reports `sat` with the model `mZeroDiv`. -/
def oracleZeroDiv : List Z3Bool → CheckOutcome := fun _ => .sat mZeroDiv

/-- Constraints using unsigned division, unsigned remainder, and signed
remainder with the divisor `y`, all satisfied when `y = 0` by the SMT-LIB
division-by-zero semantics. -/
def csUdiv : List SymBool :=
  [SymBool.eq (SymBitVector.div (SymBitVector.var "x" 8) (SymBitVector.var "y" 8))
      (SymBitVector.const 8 255),
    SymBool.eq (SymBitVector.mod (SymBitVector.var "x" 8) (SymBitVector.var "y" 8))
      (SymBitVector.var "x" 8),
    SymBool.eq (SymBitVector.signMod (SymBitVector.var "x" 8) (SymBitVector.var "y" 8))
      (SymBitVector.var "x" 8)]

/-- The result of running `is_sat` on `csUdiv`: sat, with exactly the
three lowered constraints asserted and no derived divisor guard. -/
def rUdiv : RunResult :=
  ⟨true, "", some mZeroDiv,
    [Z3Bool.eqBV (Z3BV.bvudiv (Z3BV.var "x" 8) (Z3BV.var "y" 8)) (Z3BV.num 8 255),
      Z3Bool.eqBV (Z3BV.bvurem (Z3BV.var "x" 8) (Z3BV.var "y" 8)) (Z3BV.var "x" 8),
      Z3Bool.eqBV (Z3BV.bvsrem (Z3BV.var "x" 8) (Z3BV.var "y" 8)) (Z3BV.var "x" 8)]⟩

/-- C9: unsigned division, unsigned remainder, and signed remainder lower
directly to the corresponding solver operator with no derived constraint
beyond the ones coming from their operands; consequently a formula using
only those operators admits a satisfying model whose divisor is zero, as
the concrete run on `csUdiv` shows. -/
theorem c9_unsigned_ops_no_guard :
    (∀ a b, lowerBV (SymBitVector.div a b) =
      ((lowerBV a).1.bvudiv (lowerBV b).1, (lowerBV a).2 ++ (lowerBV b).2)) ∧
    (∀ a b, lowerBV (SymBitVector.mod a b) =
      ((lowerBV a).1.bvurem (lowerBV b).1, (lowerBV a).2 ++ (lowerBV b).2)) ∧
    (∀ a b, lowerBV (SymBitVector.signMod a b) =
      ((lowerBV a).1.bvsrem (lowerBV b).1, (lowerBV a).2 ++ (lowerBV b).2)) ∧
    (Z3Solver.is_sat prevBlank samplesQuiet oracleZeroDiv csUdiv = .ret rUdiv ∧
      (∀ e ∈ rUdiv.asserted, evalZ3Bool mZeroDiv e = true) ∧
      mZeroDiv.bv "y" 8 = 0) :=
  ⟨fun _ _ => rfl, fun _ _ => rfl, fun _ _ => rfl, rfl, by decide, rfl⟩

/-! ## Claims C5 and C6: the array decoder -/

theorem getModelArrayGo_chain :
    ∀ us m base, (∀ p ∈ us, p.2 ≤ 255) →
      getModelArrayGo m (mkChain base us) =
        getModelArrayGo (us.foldl (fun acc p => setA acc p.1 p.2) m) base := by
  intro us
  induction us with
  | nil => intro m base _; rfl
  | cons p rest ih =>
    intro m base h
    obtain ⟨a, v⟩ := p
    have hv : v ≤ 255 := h (a, v) (by simp)
    simp only [mkChain, getModelArrayGo, hv, if_pos, List.foldl_cons]
    exact ih _ base fun q hq => h q (by simp [hq])

theorem lookupA_setA (m : List (Nat × Nat)) (k v : Nat) :
    ∀ k', lookupA (setA m k v) k' = if k = k' then some v else lookupA m k' := by
  induction m with
  | nil =>
    intro k'
    by_cases h : k = k' <;> simp [setA, lookupA, h]
  | cons q rest ih =>
    intro k'
    obtain ⟨a, w⟩ := q
    by_cases hak : a = k
    · subst hak
      simp only [setA, if_pos rfl, lookupA]
      by_cases h : a = k' <;> simp [h, lookupA]
    · simp only [setA, if_neg hak, lookupA, ih k']
      by_cases h1 : a = k' <;> by_cases h2 : k = k'
      · exact absurd (h1.trans h2.symm) hak
      · simp [h1, h2]
      · simp [h1, h2]
      · simp [h1, h2]

theorem lookupA_none_of_not_mem :
    ∀ us : List (Nat × Nat), ∀ k, k ∉ us.map Prod.fst → lookupA us k = none := by
  intro us
  induction us with
  | nil => intro k _; rfl
  | cons p rest ih =>
    intro k hk
    obtain ⟨a, v⟩ := p
    simp only [List.map_cons, List.mem_cons] at hk
    push_neg at hk
    simp only [lookupA]
    rw [if_neg fun h => hk.1 h.symm]
    exact ih k hk.2

theorem foldl_setA_lookup :
    ∀ us : List (Nat × Nat), ∀ m k, (us.map Prod.fst).Nodup →
      lookupA (us.foldl (fun acc p => setA acc p.1 p.2) m) k =
        ((lookupA us k).rec (lookupA m k) fun v => some v : Option Nat) := by
  intro us
  induction us with
  | nil => intro m k _; rfl
  | cons p rest ih =>
    intro m k hnd
    obtain ⟨a, v⟩ := p
    simp only [List.map_cons, List.nodup_cons] at hnd
    simp only [List.foldl_cons, lookupA]
    rw [ih _ k hnd.2]
    by_cases hak : a = k
    · subst hak
      rw [lookupA_none_of_not_mem rest a hnd.1]
      simp [lookupA_setA]
    · cases lookupA rest k <;> simp [lookupA_setA, hak]

/-- C5: the decoder peels a store chain over a constant-array base into
exactly the written (address, byte) pairs with the base's value as the
default byte; a stored value or a constant-array default outside the byte
range hits the decoder's `assert` instead of producing a result. -/
theorem c5_store_chain :
    (∀ d us, (∀ p ∈ us, p.2 ≤ 255) → d ≤ 255 → (us.map Prod.fst).Nodup →
      ∃ m, get_model_array (mkChain (ZArrayExpr.constArray d) us) = .ok (m, d) ∧
        ∀ addr, lookupA m addr = lookupA us addr) ∧
    (∀ base addr val m, 255 < val →
      getModelArrayGo m (.store base addr val) = .error ()) ∧
    (∀ d m, 255 < d → getModelArrayGo m (.constArray d) = .error ()) := by
  refine ⟨?_, ?_, ?_⟩
  · intro d us hvals hd hnd
    refine ⟨mapOfPairs us, ?_, ?_⟩
    · rw [get_model_array, getModelArrayGo_chain us [] _ hvals]
      simp [getModelArrayGo, hd, mapOfPairs]
    · intro addr
      have := foldl_setA_lookup us [] addr hnd
      rw [mapOfPairs, this]
      cases lookupA us addr <;> simp [lookupA]
  · intro base addr val m hval
    simp [getModelArrayGo, Nat.not_le.2 hval]
  · intro d m hd
    simp [getModelArrayGo, Nat.not_le.2 hd]

theorem c5_store_chain_witness :
    ∃ m, get_model_array
        (mkChain (ZArrayExpr.constArray 171) [(1, 2), (5, 7)]) = .ok (m, 171) ∧
      ∀ addr, lookupA m addr = lookupA [(1, 2), (5, 7)] addr :=
  c5_store_chain.1 171 [(1, 2), (5, 7)] (by decide) (by decide) (by decide)

/-- C6 fails on the code: on the unhandled `Z3_OP_ARRAY_MAP` base the
decoder keeps the pairs already peeled from the store chain instead of
returning an empty mapping. -/
theorem c6_arraymap_counterexample :
    get_model_array (ZArrayExpr.store ZArrayExpr.arrayMap 3 5) =
      .ok ([(3, 5)], 0) ∧ ([(3, 5)] : List (Nat × Nat)) ≠ [] :=
  ⟨rfl, by decide⟩

/-- C6 (amended): on an unsupported map-combinator base, or any
unrecognized shape, the decoder does not fail: it returns the mapping of
the point-updates peeled so far (empty when none were peeled) with a zero
default byte. -/
theorem c6_arraymap_fallback :
    (∀ us, (∀ p ∈ us, p.2 ≤ 255) →
      get_model_array (mkChain ZArrayExpr.arrayMap us) =
        .ok (mapOfPairs us, 0)) ∧
    (∀ us, (∀ p ∈ us, p.2 ≤ 255) →
      get_model_array (mkChain ZArrayExpr.unrecognized us) =
        .ok (mapOfPairs us, 0)) ∧
    get_model_array ZArrayExpr.arrayMap = .ok ([], 0) ∧
    get_model_array ZArrayExpr.unrecognized = .ok ([], 0) := by
  refine ⟨?_, ?_, rfl, rfl⟩
  · intro us hvals
    rw [get_model_array, getModelArrayGo_chain us [] _ hvals]
    rfl
  · intro us hvals
    rw [get_model_array, getModelArrayGo_chain us [] _ hvals]
    rfl

theorem c6_arraymap_fallback_witness :
    get_model_array (mkChain ZArrayExpr.arrayMap [(3, 5)]) =
      .ok (mapOfPairs [(3, 5)], 0) :=
  c6_arraymap_fallback.1 [(3, 5)] (by decide)

/-! ## Claim C8: the bit-vector decoder -/

theorem writeBytes_length :
    ∀ count res j oct, (writeBytes res j count oct).length = res.length := by
  intro count
  induction count with
  | zero => intro res j oct; rfl
  | succ c ih =>
    intro res j oct
    simp only [writeBytes, ih, List.length_set]

theorem writeBytes_getD_lt :
    ∀ count res j oct k, k < j →
      (writeBytes res j count oct).getD k 0 = res.getD k 0 := by
  intro count
  induction count with
  | zero => intro res j oct k _; rfl
  | succ c ih =>
    intro res j oct k hk
    simp only [writeBytes]
    rw [ih _ _ _ k (by omega)]
    simp only [List.getD]
    rw [List.get?_set_ne _ _ (by omega : j ≠ k)]

theorem writeBytes_getD_in :
    ∀ count res j oct k, j ≤ k → k < j + count → k < res.length →
      (writeBytes res j count oct).getD k 0 = oct / 256 ^ (k - j) % 256 := by
  intro count
  induction count with
  | zero => intro res j oct k h1 h2; omega
  | succ c ih =>
    intro res j oct k h1 h2 h3
    simp only [writeBytes]
    by_cases hkj : k = j
    · subst hkj
      rw [writeBytes_getD_lt _ _ _ _ k (by omega)]
      simp only [List.getD, Nat.sub_self, pow_zero, Nat.div_one]
      rw [List.get?_set_eq_of_lt _ h3]
      rfl
    · rw [ih _ _ _ k (by omega) (by omega) (by simpa using h3)]
      have hkj' : k - j = (k - (j + 1)) + 1 := by omega
      rw [hkj', pow_succ]
      rw [Nat.div_div_eq_div_mul]
      ring_nf

theorem byte_eq_of_mod_eq {x y j m : Nat} (hj : j + 8 ≤ m)
    (h : x % 2 ^ m = y % 2 ^ m) : x / 2 ^ j % 256 = y / 2 ^ j % 256 := by
  have h256 : (256 : Nat) = 2 ^ 8 := by norm_num
  have hdvd : (2 : Nat) ^ (j + 8) ∣ 2 ^ m := pow_dvd_pow 2 hj
  have h1 : x % 2 ^ (j + 8) = y % 2 ^ (j + 8) := by
    rw [← Nat.mod_mod_of_dvd x hdvd, h, Nat.mod_mod_of_dvd y hdvd]
  have hx : x / 2 ^ j % 256 = x % 2 ^ (j + 8) / 2 ^ j := by
    rw [h256, pow_add]
    exact (Nat.mod_mul_right_div_self x (2 ^ j) (2 ^ 8)).symm
  have hy : y / 2 ^ j % 256 = y % 2 ^ (j + 8) / 2 ^ j := by
    rw [h256, pow_add]
    exact (Nat.mod_mul_right_div_self y (2 ^ j) (2 ^ 8)).symm
  rw [hx, hy, h1]

/-- The two's-complement trick of `get_model_bv`: converting a window to
a *signed* integer (`Z3_mk_bv2int(..., true)`) and reading it back into a
`uint64_t` preserves the window's value modulo its width. -/
theorem signReinterp (w u : Nat) (hw : w ≤ 64) (hu : u < 2 ^ w) :
    (((if u < 2 ^ (w - 1) then (u : Int) else (u : Int) - 2 ^ w)) %
      ((2 : Int) ^ 64)).toNat % 2 ^ w = u := by
  have hple : (2 : Nat) ^ w ≤ 2 ^ 64 := Nat.pow_le_pow_right (by norm_num) hw
  by_cases hc : u < 2 ^ (w - 1)
  · rw [if_pos hc]
    have h1 : ((u : Int)) % (2 : Int) ^ 64 = u := by
      apply Int.emod_eq_of_lt (Int.natCast_nonneg u)
      have h2 : (u : Int) < ((2 ^ 64 : Nat) : Int) :=
        by exact_mod_cast lt_of_lt_of_le hu hple
      simpa using h2
    rw [h1, Int.toNat_natCast]
    exact Nat.mod_eq_of_lt hu
  · rw [if_neg hc]
    have hwle : (2 : Int) ^ w ≤ 2 ^ 64 := by exact_mod_cast hple
    have hu' : (u : Int) < 2 ^ w := by exact_mod_cast hu
    have key : ((u : Int) - 2 ^ w) % (2 : Int) ^ 64 = (u : Int) + (2 ^ 64 - 2 ^ w) := by
      have h2 := @Int.add_mul_emod_self_left ((u : Int) - 2 ^ w) ((2 : Int) ^ 64) 1
      rw [mul_one] at h2
      rw [← h2]
      have h4 : (u : Int) - 2 ^ w + 2 ^ 64 = (u : Int) + (2 ^ 64 - 2 ^ w) := by ring
      rw [h4]
      apply Int.emod_eq_of_lt
      · have := Int.natCast_nonneg u
        linarith
      · linarith
    rw [key]
    have hcast : ((u : Int) + ((2 : Int) ^ 64 - 2 ^ w)).toNat =
        u + (2 ^ 64 - 2 ^ w) := by
      have h3 : ((2 : Int) ^ 64 - 2 ^ w) = ((2 ^ 64 - 2 ^ w : Nat) : Int) := by
        rw [Nat.cast_sub hple]
        push_cast
        ring
      rw [h3, ← Nat.cast_add, Int.toNat_natCast]
    rw [hcast]
    obtain ⟨t, ht⟩ : 2 ^ w ∣ 2 ^ 64 - 2 ^ w :=
      Nat.dvd_sub' (pow_dvd_pow 2 hw) dvd_rfl
    rw [ht, Nat.add_mul_mod_self_left, Nat.mod_eq_of_lt hu]

theorem windowOct_mod (bits V i mB : Nat)
    (hmB : mB = if i * 64 + 63 > bits then bits - 1 else i * 64 + 63)
    (hw : mB + 1 - i * 64 ≤ 64) :
    windowOct bits V i % 2 ^ (mB + 1 - i * 64) =
      V >>> (i * 64) % 2 ^ (mB + 1 - i * 64) := by
  subst hmB
  have hu : V >>> (i * 64) %
      2 ^ ((if i * 64 + 63 > bits then bits - 1 else i * 64 + 63) + 1 - i * 64) <
      2 ^ ((if i * 64 + 63 > bits then bits - 1 else i * 64 + 63) + 1 - i * 64) :=
    Nat.mod_lt _ (Nat.pos_pow_of_pos _ (by norm_num))
  have h := signReinterp _ _ hw hu
  simpa [windowOct] using h

theorem window_byte (V i j w oct : Nat)
    (hoct : oct % 2 ^ w = V >>> (i * 64) % 2 ^ w)
    (hij : 8 * i ≤ j) (hw : 8 * (j - 8 * i) + 8 ≤ w) :
    oct / 256 ^ (j - 8 * i) % 256 = V / 256 ^ j % 256 := by
  have h1 : (256 : Nat) ^ (j - 8 * i) = 2 ^ (8 * (j - 8 * i)) := by
    rw [pow_mul]
    norm_num
  have h2 : (256 : Nat) ^ j = 2 ^ (8 * j) := by
    rw [pow_mul]
    norm_num
  rw [h1, h2]
  have h3 := @byte_eq_of_mod_eq oct (V >>> (i * 64)) (8 * (j - 8 * i)) w
    (by omega) hoct
  rw [h3, Nat.shiftRight_eq_div_pow, Nat.div_div_eq_div_mul, ← pow_add]
  have h4 : i * 64 + 8 * (j - 8 * i) = 8 * j := by omega
  rw [h4]

theorem gmbvGo_spec (bits V : Nat) (hb : bits % 8 = 0) :
    ∀ n i res, i + n = (bits + 63) / 64 →
      res.length = (bits + 7) / 8 →
      (∀ j, j < 8 * i → j < bits / 8 → res.getD j 0 = V / 256 ^ j % 256) →
      ∃ bytes, gmbvGo bits V n i res = .ok bytes ∧
        bytes.length = (bits + 7) / 8 ∧
        ∀ j, j < bits / 8 → bytes.getD j 0 = V / 256 ^ j % 256 := by
  intro n
  induction n with
  | zero =>
    intro i res hoct hlen hpre
    refine ⟨res, rfl, hlen, ?_⟩
    intro j hj
    exact hpre j (by omega) hj
  | succ n ih =>
    intro i res hoct hlen hpre
    have hibits : i * 64 < bits := by omega
    simp only [gmbvGo]
    by_cases hlast : i * 64 + 63 > bits
    · have hn0 : n = 0 := by omega
      subst hn0
      rw [if_pos hlast]
      have hmod : (bits - 1 + 1) % 8 = 0 := by omega
      rw [if_pos hmod]
      have hw : bits - 1 + 1 - i * 64 ≤ 64 := by omega
      have hoctm := windowOct_mod bits V i (bits - 1) (by rw [if_pos hlast]) hw
      apply ih
      · omega
      · rw [writeBytes_length, hlen]
      · intro j hj hjb
        by_cases hjlow : j < 8 * i
        · rw [writeBytes_getD_lt _ _ _ _ j (by omega)]
          exact hpre j hjlow hjb
        · rw [writeBytes_getD_in _ _ _ _ j (by omega) (by omega) (by omega)]
          have hkj : j - i * 8 = j - 8 * i := by omega
          rw [hkj]
          exact window_byte V i j (bits - 1 + 1 - i * 64) (windowOct bits V i)
            hoctm (by omega) (by omega)
    · rw [if_neg hlast]
      have hmod : (i * 64 + 63 + 1) % 8 = 0 := by omega
      rw [if_pos hmod]
      have hw : i * 64 + 63 + 1 - i * 64 ≤ 64 := by omega
      have hoctm := windowOct_mod bits V i (i * 64 + 63) (by rw [if_neg hlast]) hw
      apply ih
      · omega
      · rw [writeBytes_length, hlen]
      · intro j hj hjb
        by_cases hjlow : j < 8 * i
        · rw [writeBytes_getD_lt _ _ _ _ j (by omega)]
          exact hpre j hjlow hjb
        · rw [writeBytes_getD_in _ _ _ _ j (by omega) (by omega) (by omega)]
          have hkj : j - i * 8 = j - 8 * i := by omega
          rw [hkj]
          exact window_byte V i j (i * 64 + 63 + 1 - i * 64) (windowOct bits V i)
            hoctm (by omega) (by omega)

theorem gmbvGo_err (bits V : Nat) (hb : bits % 8 ≠ 0) (h63 : bits % 64 ≠ 63) :
    ∀ n i res, i + n = (bits + 63) / 64 → 0 < n →
      gmbvGo bits V n i res = .error () := by
  intro n
  induction n with
  | zero =>
    intro i res _ h
    omega
  | succ n ih =>
    intro i res hoct _
    have hibits : i * 64 < bits := by omega
    simp only [gmbvGo]
    by_cases hlast : i * 64 + 63 > bits
    · rw [if_pos hlast]
      have hne : (bits - 1 + 1) % 8 ≠ 0 := by omega
      rw [if_neg hne]
    · rw [if_neg hlast]
      have hmod : (i * 64 + 63 + 1) % 8 = 0 := by omega
      rw [if_pos hmod]
      exact ih (i + 1) _ (by omega) (by omega)

/-- C8: `get_model_bv` runs over `(bits + 63) / 64` windows; for a
byte-aligned width and a model value below `2 ^ bits` it returns the
little-endian byte decomposition of the value, `bits / 8` bytes long; for
a width that is not byte-aligned (and whose off-by-one window boundary
`bits % 64 = 63` is not hit) the internal window-alignment `assert`
fires instead of a result being returned. -/
theorem c8_get_model_bv :
    (∀ bits V, get_model_bv bits V =
      gmbvGo bits V ((bits + 63) / 64) 0 (List.replicate ((bits + 7) / 8) 0)) ∧
    (∀ bits V, bits % 8 = 0 → V < 2 ^ bits →
      ∃ bytes, get_model_bv bits V = .ok bytes ∧ bytes.length = bits / 8 ∧
        ∀ j, j < bits / 8 → bytes.getD j 0 = V / 256 ^ j % 256) ∧
    (∀ bits V, bits % 8 ≠ 0 → bits % 64 ≠ 63 →
      get_model_bv bits V = .error ()) := by
  refine ⟨fun _ _ => rfl, ?_, ?_⟩
  · intro bits V hb hV
    obtain ⟨bytes, h1, h2, h3⟩ := gmbvGo_spec bits V hb ((bits + 63) / 64) 0
      (List.replicate ((bits + 7) / 8) 0)
      (by omega) (by simp) (by intro j hj1 hj2; omega)
    refine ⟨bytes, h1, ?_, h3⟩
    rw [h2]
    omega
  · intro bits V hb h63
    exact gmbvGo_err bits V hb h63 _ 0 _ (by omega) (by omega)

theorem c8_get_model_bv_witness :
    ∃ bytes, get_model_bv 16 4660 = .ok bytes ∧ bytes.length = 2 ∧
      ∀ j, j < 2 → bytes.getD j 0 = 4660 / 256 ^ j % 256 :=
  c8_get_model_bv.2.1 16 4660 (by decide) (by decide)
